import Mathlib

/-!
A shallow embedding of `DHT_demo.go` (package DHT_demo).

The Go program keeps, per node, a content store (`map[string][]byte`) and a slice of known
nodes inside a heap object `DHT`; `Node.SetValue` verifies a record against its SHA-256 key,
stores it and recurses into the nodes picked by a closest-node selection; `Peer.GetValue`
reads the store and falls back on the routing table (`KBucket`), whose `selectClosestNodes`
merges all buckets, sorts by XOR distance (`calculateDistance`) and slices the first `n`.

Modelling conventions.
* Go `string` is `String`; Go `[]byte` is `ByteSlice`, where `none` is the nil slice.
  A `[]byte` key that the source reads only through `string(key)` is carried as that string.
* `*DHT` pointers are addresses into the list of allocated `DHT` objects; an address that is
  not allocated plays the nil pointer and dereferencing it is the fault `nilDereference`.
  A `*Bucket` may be nil (`none`), as `NewKBucket` leaves it. The fields of a `Node` are
  never assigned after construction, so a `*Node` is carried by value; in the slice that
  `KBucket.selectClosestNodes` returns an entry may be the nil `*Node` (`none`), which the
  slice expression exposes beyond the length. A nil `*Node` in a bucket or returned by the
  absent selection, and a nil map, are not modelled (every constructor of the source calls
  `make`).
* A slice under `append` is its elements and its capacity; the capacity a reallocation gives
  is chosen by the runtime (`SliceGrower`, with `gcGrower` for the gc runtime).
* Run-time panics are the `Except.error` results of type `Fault`.
* Library code: `crypto/sha256` and `encoding/hex` are modelled exactly, `math/big` as it is
  implemented (`SetString` leaves the digits it scanned in the receiver when it fails), and
  `sort.Slice` by its contract (`SliceSorter`), which leaves the order of ties open.
* Two methods the source calls but does not define, `(*DHT).selectClosestNodes` and
  `(*Node).GetValue`, are parameters (`DhtSelector`, `NodeGetter`).
-/

namespace DHT_demo

/-! ## Bytes, SHA-256 and hex encoding -/

/-- A byte. -/
abbrev Byte := Fin 256

/-- A Go `[]byte`; `none` is the nil slice. -/
abbrev ByteSlice := Option (List Byte)

/-- The bytes held by a slice (the nil slice holds none). -/
def ByteSlice.bytes (b : ByteSlice) : List Byte := b.getD []

namespace Sha256

/-- The 64 round constants of SHA-256 (FIPS 180-4, section 4.2.2): the first 32 bits of the
fractional parts of the cube roots of the first 64 primes. -/
def roundConstants : List Nat :=
  [1116352408, 1899447441, 3049323471, 3921009573, 961987163, 1508970993, 2453635748, 2870763221,
   3624381080, 310598401, 607225278, 1426881987, 1925078388, 2162078206, 2614888103, 3248222580,
   3835390401, 4022224774, 264347078, 604807628, 770255983, 1249150122, 1555081692, 1996064986,
   2554220882, 2821834349, 2952996808, 3210313671, 3336571891, 3584528711, 113926993, 338241895,
   666307205, 773529912, 1294757372, 1396182291, 1695183700, 1986661051, 2177026350, 2456956037,
   2730485921, 2820302411, 3259730800, 3345764771, 3516065817, 3600352804, 4094571909, 275423344,
   430227734, 506948616, 659060556, 883997877, 958139571, 1322822218, 1537002063, 1747873779,
   1955562222, 2024104815, 2227730452, 2361852424, 2428436474, 2756734187, 3204031479,
   3329325298]

/-- The initial hash value of SHA-256 (FIPS 180-4, section 5.3.3): the first 32 bits of the
fractional parts of the square roots of the first 8 primes. -/
def initialState : List Nat :=
  [1779033703, 3144134277, 1013904242, 2773480762, 1359893119, 2600822924, 528734635, 1541459225]

/-- Truncation to a 32-bit word. -/
def w32 (x : Nat) : Nat := x % 4294967296

/-- Rotate a 32-bit word right by `n` bits. -/
def rotr (x n : Nat) : Nat := w32 ((x >>> n) ||| (x <<< (32 - n)))

/-- The function written as capital sigma, index 0. -/
def bigSigma0 (x : Nat) : Nat := rotr x 2 ^^^ rotr x 13 ^^^ rotr x 22

/-- The function written as capital sigma, index 1. -/
def bigSigma1 (x : Nat) : Nat := rotr x 6 ^^^ rotr x 11 ^^^ rotr x 25

/-- The function written as small sigma, index 0. -/
def smallSigma0 (x : Nat) : Nat := rotr x 7 ^^^ rotr x 18 ^^^ (x >>> 3)

/-- The function written as small sigma, index 1. -/
def smallSigma1 (x : Nat) : Nat := rotr x 17 ^^^ rotr x 19 ^^^ (x >>> 10)

/-- The choice function. -/
def ch (e f g : Nat) : Nat := (e &&& f) ^^^ ((4294967295 - e) &&& g)

/-- The majority function. -/
def maj (a b c : Nat) : Nat := (a &&& b) ^^^ (a &&& c) ^^^ (b &&& c)

/-- The padded message: the bytes, then 0x80, zeros up to 56 modulo 64, and the length in bits
on eight bytes, most significant first. -/
def pad (msg : List Nat) : List Nat :=
  let bits := (8 * msg.length) % 18446744073709551616
  msg ++ 128 :: List.replicate ((119 - msg.length % 64) % 64) 0 ++
    (List.range 8).map (fun i => (bits >>> (8 * (7 - i))) % 256)

/-- Big-endian 32-bit words of a byte list, four bytes a word. -/
def toWords : List Nat → List Nat
  | a :: b :: c :: d :: rest => (((a * 256 + b) * 256 + c) * 256 + d) :: toWords rest
  | _ => []

/-- One of the 64 rounds. The state is the eight working variables and a window of sixteen
words of the message schedule, the word of the current round first. -/
def round (s : List Nat × List Nat) (k : Nat) : List Nat × List Nat :=
  match s with
  | ([a, b, c, d, e, f, g, h], w) =>
    let t1 := w32 (h + bigSigma1 e + ch e f g + k + w.getD 0 0)
    let t2 := w32 (bigSigma0 a + maj a b c)
    let next := w32 (smallSigma1 (w.getD 14 0) + w.getD 9 0 + smallSigma0 (w.getD 1 0) + w.getD 0 0)
    ([w32 (t1 + t2), a, b, c, w32 (d + t1), e, f, g], w.drop 1 ++ [next])
  | _ => s

/-- The compression of one 16-word block into the hash value. -/
def block (h : List Nat) (w : List Nat) : List Nat :=
  List.zipWith (fun x y => w32 (x + y)) h (roundConstants.foldl round (h, w)).1

/-- The compression of `n` successive blocks. -/
def blocks : Nat → List Nat → List Nat → List Nat
  | 0, h, _ => h
  | n + 1, h, ws => blocks n (block h (ws.take 16)) (ws.drop 16)

/-- The 32 bytes of the SHA-256 digest of a byte list, as numbers below 256. -/
def digest (msg : List Nat) : List Nat :=
  let ws := toWords (pad msg)
  (blocks (ws.length / 16) initialState ws).flatMap
    (fun x => [x >>> 24, (x >>> 16) % 256, (x >>> 8) % 256, x % 256])

end Sha256

/-- Go `sha256.Sum256`: the digest of the bytes of a slice. -/
def Sum256 (data : ByteSlice) : List Byte :=
  (Sha256.digest (data.bytes.map Fin.val)).map (fun x => Fin.ofNat x)

/-- The table `hextable` of `encoding/hex`. -/
def hextable : List Char := "0123456789abcdef".data

/-- Go `hex.EncodeToString`: two lowercase hexadecimal digits a byte, high nibble first. -/
def EncodeToString (src : List Byte) : String :=
  String.mk (src.flatMap fun v => [hextable.getD (v.val / 16) '0', hextable.getD (v.val % 16) '0'])

/-- The expression `hex.EncodeToString(hash[:])` for `hash := sha256.Sum256(value)`. -/
def hexSum256 (value : ByteSlice) : String := EncodeToString (Sum256 value)

/-! ## The data model -/

/-- Constant `K`. -/
def K : Nat := 20

/-- Constant `bucketSize`. -/
def bucketSize : Nat := 3

/-- A Go `map[string][]byte` as an association list, first binding of a key first. -/
abbrev Store := List (String × ByteSlice)

/-- The comma-ok read `value, ok := m[key]`: `some value` when `ok`. -/
def Store.get (m : Store) (key : String) : Option ByteSlice := List.lookup key m

/-- The assignment `m[key] = value`. -/
def Store.set (m : Store) (key : String) (value : ByteSlice) : Store :=
  (key, value) :: m.filter (fun e => e.1 != key)

/-- Struct `Node`; `dht` is the address of its `DHT` object. -/
structure Node where
  id : String
  dht : Nat
deriving DecidableEq

/-- Struct `DHT`. -/
structure DHT where
  store : Store
  nodes : List Node
deriving DecidableEq

/-- Struct `Bucket`. -/
structure Bucket where
  nodes : List Node
deriving DecidableEq

/-- Struct `KBucket`; a nil `*Bucket` is `none`. -/
structure KBucket where
  buckets : List (Option Bucket)
deriving DecidableEq

/-- Struct `Peer`; `dht` is the address of its `DHT` object. -/
structure Peer where
  kbucket : KBucket
  dht : Nat
deriving DecidableEq

/-- The allocated `DHT` objects, by address. -/
abbrev Heap := List DHT

/-- What a run of `SetValue` does that is visible from outside a store: the invocations of
`SetValue` and the calls of the closest-node selection, in order. -/
inductive Event where
  | setValue (n : Node) (key : String) (value : ByteSlice)
  | select (dht : Nat) (nodeId : String) (n : Int)
deriving DecidableEq

/-- The state a run of `SetValue` acts on: the heap and the events so far. -/
structure World where
  heap : Heap
  trace : List Event
deriving DecidableEq

/-- The ways a run stops without a result: the two Go panics the code can raise, and the
exhaustion of the recursion budget of the model. -/
inductive Fault where
  | nilDereference
  | sliceBounds
  | outOfFuel
deriving DecidableEq

deriving instance DecidableEq for Except

/-- Function `NewNode`: allocates a `DHT` with an empty store and no nodes. -/
def NewNode (h : Heap) (id : String) : Node × Heap :=
  ({ id := id, dht := h.length }, h ++ [{ store := [], nodes := [] }])

/-- Function `NewBucket`. -/
def NewBucket : Bucket := { nodes := [] }

/-- Function `NewKBucket`: `make([]*Bucket, K)` is `K` nil pointers. -/
def NewKBucket : KBucket := { buckets := List.replicate K none }

/-- Function `NewPeer`; the parameter `id` is unused, as in the source. -/
def NewPeer (h : Heap) (_id : String) : Peer × Heap :=
  ({ kbucket := NewKBucket, dht := h.length }, h ++ [{ store := [], nodes := [] }])

/-! ## The distance metric -/

/-- The digit value `nat.scan` of `math/big` gives a byte: `MaxBase + 1 = 63` marks a byte
that is no digit in any base. -/
def digitVal (c : Char) : Nat :=
  if '0' ≤ c ∧ c ≤ '9' then c.toNat - '0'.toNat
  else if 'a' ≤ c ∧ c ≤ 'z' then c.toNat - 'a'.toNat + 10
  else if 'A' ≤ c ∧ c ≤ 'Z' then c.toNat - 'A'.toNat + 10
  else 63

/-- The mantissa scan of `math/big`: digits below `base` are accumulated, most significant
first, up to the first byte that is not such a digit. -/
def scanDigits (base : Nat) : List Char → Nat → Nat
  | [], acc => acc
  | c :: cs, acc => if digitVal c < base then scanDigits base cs (acc * base + digitVal c) else acc

/-- The receiver after `new(big.Int).SetString(s, base)` for an explicit base, whose two
results the source discards: an optional sign, then the digits scanned. On the empty string,
or when no digit follows, the receiver is zero; bytes after the last digit make the call
report failure but leave the digits scanned so far in the receiver. -/
def SetString (s : String) (base : Nat) : Int :=
  match s.data with
  | [] => 0
  | c :: cs =>
    if c = '+' then Int.ofNat (scanDigits base cs 0)
    else if c = '-' then -Int.ofNat (scanDigits base cs 0)
    else Int.ofNat (scanDigits base (c :: cs) 0)

/-- Method `big.Int.Xor`: exclusive or of integers in the two-complement reading, computed
on sign and magnitude as in `math/big`. -/
def Xor (x y : Int) : Int :=
  match x, y with
  | Int.ofNat m, Int.ofNat n => Int.ofNat (m ^^^ n)
  | Int.negSucc m, Int.negSucc n => Int.ofNat (m ^^^ n)
  | Int.ofNat m, Int.negSucc n => Int.negSucc (m ^^^ n)
  | Int.negSucc m, Int.ofNat n => Int.negSucc (m ^^^ n)

/-- Function `calculateDistance`. -/
def calculateDistance (nodeId1 nodeId2 : String) : Int :=
  Xor (SetString nodeId1 16) (SetString nodeId2 16)

/-! ## Closest-node selection over the routing table -/

/-- The contract of `sort.Slice`: the slice is permuted, and if `less` is a strict weak
ordering no element is less than one placed before it. Stability is not promised. -/
structure SliceSorter where
  sort : {α : Type} → (α → α → Bool) → List α → List α
  perm : ∀ {α : Type} (less : α → α → Bool) (l : List α), (sort less l).Perm l
  sorted : ∀ {α : Type} (less : α → α → Bool) (l : List α),
    (∀ a b, less a b = true → less b a = false) →
    (∀ a b c, less a b = false → less b c = false → less a c = false) →
    List.Pairwise (fun a b => less b a = false) (sort less l)

/-- Insertion sort, which is what `sort.Slice` runs on slices of at most twelve elements. -/
def insertionSorter : SliceSorter where
  sort := fun less l => l.insertionSort (fun a b => less b a = false)
  perm := fun less l => List.perm_insertionSort (fun a b => less b a = false) l
  sorted := fun {α} less l hasym hneg => by
    haveI : IsTotal α (fun a b => less b a = false) := ⟨fun a b => by
      cases h : less b a
      · exact Or.inl rfl
      · exact Or.inr (hasym b a h)⟩
    haveI : IsTrans α (fun a b => less b a = false) := ⟨fun a b c hab hbc => hneg c b a hbc hab⟩
    exact List.sorted_insertionSort (fun a b => less b a = false) l

/-- The closure handed to `sort.Slice` in `selectClosestNodes`. -/
def lessByDistance (nodeId : String) (a b : Node) : Bool :=
  decide (calculateDistance a.id nodeId < calculateDistance b.id nodeId)

/-- What `append` does when the capacity of the slice does not suffice: `grow oldCap newLen`
is the capacity of the array it allocates. The language promises only that the new array is
large enough; the capacity is chosen by the runtime. -/
structure SliceGrower where
  grow : Nat → Nat → Nat
  fits : ∀ oldCap newLen : Nat, newLen ≤ grow oldCap newLen

/-- The byte sizes of the size classes of the gc allocator up to 512 bytes. -/
def sizeClasses : List Nat :=
  [8, 16, 24, 32, 48, 64, 80, 96, 112, 128, 144, 160, 176, 192, 208, 224, 240, 256, 288, 320,
   352, 384, 416, 448, 480, 512]

/-- Function `roundupsize` of the gc runtime on requests of up to 512 bytes: the smallest size
class that holds the request. A larger request is kept as it is. -/
def roundupsize (size : Nat) : Nat :=
  (sizeClasses.find? (fun c => decide (size ≤ c))).getD size

/-- The growth of a slice of pointers (8 bytes an element) in the gc runtime, function
`growslice`: the capacity is doubled, or is the length needed when that exceeds the double,
and is then rounded up to a size class of the allocator. This is what every release does
for slices of up to 64 elements; beyond that the releases differ and this instance keeps the
doubled capacity, unrounded. -/
def gcGrower : SliceGrower where
  grow := fun oldCap newLen =>
    roundupsize ((if 2 * oldCap < newLen then newLen else 2 * oldCap) * 8) / 8
  fits := fun oldCap newLen => by
    have hr : ∀ size : Nat, size ≤ roundupsize size := by
      intro size
      unfold roundupsize
      cases hfind : sizeClasses.find? (fun c => decide (size ≤ c)) with
      | none => simp
      | some c => simpa using List.find?_some hfind
    have hm : newLen ≤ (if 2 * oldCap < newLen then newLen else 2 * oldCap) := by
      split <;> omega
    exact Nat.le_trans hm ((Nat.le_div_iff_mul_le (by decide)).mpr (hr _))

/-- The statement `s = append(s, xs...)` on a slice given by its elements and its capacity:
the elements are written in place when the capacity suffices, else into an array of the
capacity the runtime chooses. -/
def appendSlice (G : SliceGrower) (s : List Node × Nat) (xs : List Node) : List Node × Nat :=
  if s.1.length + xs.length ≤ s.2 then (s.1 ++ xs, s.2)
  else (s.1 ++ xs, G.grow s.2 (s.1.length + xs.length))

/-- The loop `closestNodes = append(closestNodes, bucket.nodes...)` over `kb.buckets`; reading
`bucket.nodes` through a nil `*Bucket` panics. -/
def appendBuckets (G : SliceGrower) :
    List (Option Bucket) → List Node × Nat → Except Fault (List Node × Nat)
  | [], closestNodes => .ok closestNodes
  | none :: _, _ => .error .nilDereference
  | some bucket :: rest, closestNodes =>
    appendBuckets G rest (appendSlice G closestNodes bucket.nodes)

/-- The slice expression `s[:n]` on a slice of pointers given by its elements and its
capacity. Go bounds `n` by the capacity, not by the length; the entries of the array beyond
the length, which nothing has written, are nil pointers (`none`). -/
def sliceTo {α : Type} (s : List α) (cap : Nat) (n : Int) : Except Fault (List (Option α)) :=
  if 0 ≤ n ∧ n ≤ (cap : Int) then
    .ok ((s.map some ++ List.replicate (cap - s.length) none).take n.toNat)
  else .error .sliceBounds

/-- Method `KBucket.selectClosestNodes`; the parameters `nodes` and `store` are unused, as in
the source. `closestNodes` starts as the nil slice, of length and capacity 0. An entry of
the result is a `*Node`, nil when it is `none`. -/
def KBucket.selectClosestNodes (S : SliceSorter) (G : SliceGrower) (kb : KBucket)
    (_nodes : List Node) (_store : Store) (nodeId : String) (n : Int) :
    Except Fault (List (Option Node)) :=
  match appendBuckets G kb.buckets ([], 0) with
  | .error e => .error e
  | .ok (closestNodes, cap) => sliceTo (S.sort (lessByDistance nodeId) closestNodes) cap n

/-! ## Store and lookup -/

/-- The method `(*DHT).selectClosestNodes(nodeId, n)` that `SetValue` calls and the source
does not define: any function of the heap, the receiver, and the two arguments that returns
nodes or panics. -/
abbrev DhtSelector := Heap → Nat → String → Int → Except Fault (List Node)

/-- The method `(*Node).GetValue(key)` that `Peer.GetValue` calls and the source does not
define: any function of the heap, the receiver (a `*Node`, nil when `none`) and the key that
returns a byte slice or panics. -/
abbrev NodeGetter := Heap → Option Node → String → Except Fault ByteSlice

/-- The loop `for _, node := range closestNodes { node.SetValue(key, value) }`: the calls run
in order on the state the previous one left, their boolean results are dropped, a panic
ends the loop. -/
def forNodes (call : World → Node → Except Fault (Bool × World)) :
    List Node → World → Except Fault World
  | [], w => .ok w
  | node :: rest, w =>
    match call w node with
    | .error e => .error e
    | .ok (_, w1) => forNodes call rest w1

/-- Method `Node.SetValue`. The first argument bounds the depth of the recursion. -/
def Node.SetValue (sel : DhtSelector) :
    Nat → World → Node → String → ByteSlice → Except Fault (Bool × World)
  | 0, _, _, _, _ => .error .outOfFuel
  | fuel + 1, w, n, key, value =>
    let w0 : World := { heap := w.heap, trace := w.trace ++ [Event.setValue n key value] }
    if hexSum256 value != key then .ok (false, w0)
    else
      match w0.heap[n.dht]? with
      | none => .error .nilDereference
      | some d =>
        match d.store.get key with
        | some _ => .ok (true, w0)
        | none =>
          let heap1 := w0.heap.set n.dht { store := d.store.set key value, nodes := d.nodes }
          let w1 : World := { heap := heap1, trace := w0.trace ++ [Event.select n.dht n.id 2] }
          match sel heap1 n.dht n.id 2 with
          | .error e => .error e
          | .ok closestNodes =>
            match forNodes (fun w node => Node.SetValue sel fuel w node key value)
                closestNodes w1 with
            | .error e => .error e
            | .ok w2 => .ok (true, w2)

/-- The loop of `Peer.GetValue` over the closest nodes: the first non-nil answer whose
SHA-256 is the key, else nil; a panic of a queried node ends the loop. -/
def firstVerified (get : Option Node → Except Fault ByteSlice) (key : String) :
    List (Option Node) → Except Fault ByteSlice
  | [] => .ok none
  | node :: rest =>
    match get node with
    | .error e => .error e
    | .ok (some v) => if hexSum256 (some v) == key then .ok (some v) else firstVerified get key rest
    | .ok none => firstVerified get key rest

/-- Method `Peer.GetValue`. -/
def Peer.GetValue (S : SliceSorter) (G : SliceGrower) (nodeGet : NodeGetter) (h : Heap)
    (p : Peer) (key : String) : Except Fault ByteSlice :=
  match h[p.dht]? with
  | none => .error .nilDereference
  | some d =>
    match d.store.get key with
    | some value => .ok value
    | none =>
      match p.kbucket.selectClosestNodes S G d.nodes d.store key 2 with
      | .error e => .error e
      | .ok closestNodes => firstVerified (fun node => nodeGet h node key) key closestNodes

/-! ## Notions the properties are stated with -/

/-- All contacts of a routing table: the concatenation of the node lists of its buckets. -/
def KBucket.contacts (kb : KBucket) : List Node :=
  kb.buckets.flatMap (fun b => match b with
    | some bucket => bucket.nodes
    | none => [])

/-- Every entry a store returns is keyed by the SHA-256 of its value. -/
def Store.Verified (m : Store) : Prop :=
  ∀ k v, m.get k = some v → hexSum256 v = k

/-- Every store of the heap is verified. -/
def Heap.Verified (h : Heap) : Prop :=
  ∀ d ∈ h, d.store.Verified

/-- No node listed in the heap has a nil `dht`. -/
def Heap.Linked (h : Heap) : Prop :=
  ∀ d ∈ h, ∀ m ∈ d.nodes, m.dht < h.length

/-- A selector that, on a heap without nil `dht` pointers, returns nodes without nil `dht`
pointers and does not panic. -/
def DhtSelector.Sound (sel : DhtSelector) : Prop :=
  ∀ (h : Heap) (a : Nat) (nodeId : String) (k : Int), h.Linked → a < h.length →
    ∃ ns, sel h a nodeId k = .ok ns ∧ ∀ m ∈ ns, m.dht < h.length

/-- A `DHT` object after some stores: the same nodes, and every entry it returned it still
returns. -/
def DHT.Extends (d d2 : DHT) : Prop :=
  d2.nodes = d.nodes ∧ ∀ k v, d.store.get k = some v → d2.store.get k = some v

/-- A heap after some stores: the same addresses, each object extended. -/
def Heap.Extends (h h2 : Heap) : Prop := List.Forall₂ DHT.Extends h h2

/-- The number of `DHT` objects whose store does not hold `key`. -/
def Heap.lacking (key : String) (h : Heap) : Nat :=
  h.countP (fun d => (d.store.get key).isNone)

/-- The characters that are hexadecimal digits. -/
def hexDigits : List Char := "0123456789abcdefABCDEF".data

/-- A string of hexadecimal digits only. -/
def IsHex (s : String) : Prop := ∀ c ∈ s.data, c ∈ hexDigits

instance instDecidableIsHex (s : String) : Decidable (IsHex s) :=
  inferInstanceAs (Decidable (∀ c ∈ s.data, c ∈ hexDigits))

/-- The value of a hexadecimal digit, read off its place among the digits. -/
def hexDigitValue (c : Char) : Nat :=
  if c ∈ "0123456789abcdef".data then "0123456789abcdef".data.indexOf c
  else "0123456789ABCDEF".data.indexOf c

/-- The unsigned integer a string of hexadecimal digits denotes in base 16. -/
def hexValue (s : String) : Nat :=
  Nat.ofDigits 16 (s.data.reverse.map hexDigitValue)

/-- A string of lowercase hexadecimal digits only, as `hex.EncodeToString` produces. -/
def IsLowerHex (s : String) : Prop := ∀ c ∈ s.data, c ∈ hextable

instance instDecidableIsLowerHex (s : String) : Decidable (IsLowerHex s) :=
  inferInstanceAs (Decidable (∀ c ∈ s.data, c ∈ hextable))

/-- The number of invocations of `SetValue` recorded in a trace. -/
def setValueCalls (t : List Event) : Nat :=
  t.countP (fun e => match e with
    | Event.setValue _ _ _ => true
    | Event.select _ _ _ => false)

/-- A selector that returns at most as many nodes as it is asked for. -/
def DhtSelector.Bounded (sel : DhtSelector) : Prop :=
  ∀ (h : Heap) (a : Nat) (nodeId : String) (k : Int) (ns : List Node), 0 ≤ k →
    sel h a nodeId k = .ok ns → (ns.length : Int) ≤ k

/-- The element at index `mid` moved to the front, the others kept in order. -/
def pivotFirst {α : Type} (l : List α) (mid : Nat) : List α :=
  match l.drop mid with
  | pivot :: after => pivot :: (l.take mid ++ after)
  | [] => l

/-- A sorter that meets the contract of `sort.Slice` and is not stable. Up to twelve elements
it is insertion sort; on a longer slice it first moves the element at index
`length / 4 * 2` to the front, as the partition step of a quicksort moves its pivot, and
then runs insertion sort. -/
def pivotFirstSorter : SliceSorter where
  sort := fun less l =>
    (if l.length ≤ 12 then l else pivotFirst l (l.length / 4 * 2)).insertionSort
      (fun a b => less b a = false)
  perm := fun {α} less l => by
    refine (List.perm_insertionSort (fun a b => less b a = false) _).trans ?_
    split
    · exact List.Perm.refl l
    · unfold pivotFirst
      split
      · next pivot after hd =>
        have hl : l = l.take (l.length / 4 * 2) ++ pivot :: after := by
          rw [← hd, List.take_append_drop]
        exact (List.perm_middle.symm.trans (List.Perm.of_eq hl.symm))
      · exact List.Perm.refl l
  sorted := fun {α} less l hasym hneg => by
    haveI : IsTotal α (fun a b => less b a = false) := ⟨fun a b => by
      cases h : less b a
      · exact Or.inl rfl
      · exact Or.inr (hasym b a h)⟩
    haveI : IsTrans α (fun a b => less b a = false) := ⟨fun a b c hab hbc => hneg c b a hbc hab⟩
    exact List.sorted_insertionSort (fun a b => less b a = false) _

/-- A routing table of thirteen contacts in five buckets of at most `bucketSize` nodes: the
first contact has the hexadecimal identifier "01", the other twelve have identifiers of the
form the program gives its nodes ("node1" to "node12"), which hold no hexadecimal digit. -/
def thirteenContacts : KBucket :=
  { buckets :=
      [some { nodes := [{ id := "01", dht := 0 }, { id := "node1", dht := 1 },
                        { id := "node2", dht := 2 }] },
       some { nodes := [{ id := "node3", dht := 3 }, { id := "node4", dht := 4 },
                        { id := "node5", dht := 5 }] },
       some { nodes := [{ id := "node6", dht := 6 }, { id := "node7", dht := 7 },
                        { id := "node8", dht := 8 }] },
       some { nodes := [{ id := "node9", dht := 9 }, { id := "node10", dht := 10 },
                        { id := "node11", dht := 11 }] },
       some { nodes := [{ id := "node12", dht := 12 }] }] }

/-! ## Concrete inputs -/

/-- The selector that returns the nodes the receiver lists. -/
def listedNodes : DhtSelector := fun h a _ _ =>
  match h[a]? with
  | some d => .ok d.nodes
  | none => .error .nilDereference

/-- The selector that returns the first `n` of the nodes the receiver lists, or all of them
when it lists fewer. -/
def listedUpTo : DhtSelector := fun h a _ n =>
  match h[a]? with
  | some d => .ok (d.nodes.take n.toNat)
  | none => .error .nilDereference

/-- A getter that answers nil. -/
def noAnswer : NodeGetter := fun _ _ _ => .ok none

/-- The bytes of "abc". -/
def abc : ByteSlice := some [97, 98, 99]

/-- The lowercase hexadecimal SHA-256 of "abc". -/
def abcKey : String := "ba7816bf8f01cfea414140de5dae2223b00361a396177a9cb410ff61f20015ad"

end DHT_demo

namespace DHT_demo

/-! ## The store -/

theorem Store.get_set_self (m : Store) (k : String) (v : ByteSlice) :
    (m.set k v).get k = some v := by
  simp [Store.get, Store.set, List.lookup]

theorem Store.get_filter_ne (m : Store) (k k2 : String) (hne : k2 ≠ k) :
    List.lookup k2 (m.filter (fun e => e.1 != k)) = List.lookup k2 m := by
  induction m with
  | nil => rfl
  | cons e rest ih =>
    obtain ⟨ek, ev⟩ := e
    by_cases hek : ek = k
    · subst hek
      have h1 : (k2 == ek) = false := by simpa using hne
      simp [List.filter, List.lookup, h1, ih]
    · have h1 : (ek != k) = true := by simpa using hek
      simp only [List.filter, h1, List.lookup]
      rw [ih]

theorem Store.get_set_of_ne (m : Store) (k k2 : String) (v : ByteSlice) (hne : k2 ≠ k) :
    (m.set k v).get k2 = m.get k2 := by
  have h1 : (k2 == k) = false := by simpa using hne
  simp only [Store.get, Store.set, List.lookup, h1]
  exact Store.get_filter_ne m k k2 hne

/-! ## `SetValue`: the paths that return at once -/

/-- C2. When the lowercase hexadecimal SHA-256 of `value` is not `key`, `SetValue` returns
false on any node (given fuel for one call), the heap of stores is unchanged, and the only
event is the invocation itself: no closest-node selection and no `SetValue` on another
node. -/
theorem SetValue_rejects_hash_mismatch (sel : DhtSelector) (fuel : Nat) (w : World) (n : Node)
    (key : String) (value : ByteSlice) (hbad : hexSum256 value ≠ key) :
    Node.SetValue sel (fuel + 1) w n key value =
      .ok (false, { heap := w.heap, trace := w.trace ++ [Event.setValue n key value] }) := by
  simp [Node.SetValue, hbad]

theorem SetValue_rejects_hash_mismatch_witness :
    hexSum256 abc ≠ "00" ∧
    Node.SetValue listedNodes 1 { heap := [{ store := [], nodes := [] }], trace := [] }
        { id := "0a", dht := 0 } "00" abc =
      .ok (false, { heap := [{ store := [], nodes := [] }],
                    trace := [Event.setValue { id := "0a", dht := 0 } "00" abc] }) :=
  ⟨by decide, SetValue_rejects_hash_mismatch listedNodes 0
    { heap := [{ store := [], nodes := [] }], trace := [] } { id := "0a", dht := 0 } "00" abc
    (by decide)⟩

/-- C3. When the store of the node already holds `key` and the lowercase hexadecimal SHA-256
of `value` is `key`, `SetValue` returns true (given fuel for one call), the heap of stores is
unchanged (so are the key set, the size and every value of the store), and the only event is
the invocation itself: no selection and no replication call. -/
theorem SetValue_idempotent_on_present_key (sel : DhtSelector) (fuel : Nat) (w : World)
    (n : Node) (key : String) (value : ByteSlice) (d : DHT) (old : ByteSlice)
    (hkey : hexSum256 value = key) (hd : w.heap[n.dht]? = some d)
    (hpresent : d.store.get key = some old) :
    Node.SetValue sel (fuel + 1) w n key value =
      .ok (true, { heap := w.heap, trace := w.trace ++ [Event.setValue n key value] }) := by
  simp [Node.SetValue, hkey, hd, hpresent]

theorem SetValue_idempotent_on_present_key_witness :
    hexSum256 abc = abcKey ∧
    Node.SetValue listedNodes 1
        { heap := [{ store := [(abcKey, abc)], nodes := [{ id := "0b", dht := 0 }] }], trace := [] }
        { id := "0a", dht := 0 } abcKey abc =
      .ok (true, { heap := [{ store := [(abcKey, abc)], nodes := [{ id := "0b", dht := 0 }] }],
                   trace := [Event.setValue { id := "0a", dht := 0 } abcKey abc] }) :=
  ⟨by decide, SetValue_idempotent_on_present_key listedNodes 0
    { heap := [{ store := [(abcKey, abc)], nodes := [{ id := "0b", dht := 0 }] }], trace := [] }
    { id := "0a", dht := 0 } abcKey abc
    { store := [(abcKey, abc)], nodes := [{ id := "0b", dht := 0 }] } abc
    (by decide) (by decide) (by decide)⟩

end DHT_demo

namespace DHT_demo

/-! ## Heaps along a run -/

theorem DHT.extends_self (d : DHT) : d.Extends d := ⟨rfl, fun _ _ h => h⟩

theorem Heap.extends_refl (h : Heap) : h.Extends h := by
  induction h with
  | nil => exact List.Forall₂.nil
  | cons d rest ih => exact List.Forall₂.cons (DHT.extends_self d) ih

theorem Heap.Extends.trans {h1 h2 h3 : Heap} (h12 : h1.Extends h2) (h23 : h2.Extends h3) :
    h1.Extends h3 := by
  induction h12 generalizing h3 with
  | nil => cases h23; exact List.Forall₂.nil
  | cons hd _ ih =>
    cases h23 with
    | cons hd2 htl2 =>
      exact List.Forall₂.cons ⟨hd2.1.trans hd.1, fun k v hk => hd2.2 k v (hd.2 k v hk)⟩ (ih htl2)

theorem Heap.Extends.length_eq {h h2 : Heap} (he : h.Extends h2) : h2.length = h.length :=
  (List.Forall₂.length_eq he).symm

theorem Heap.Extends.lookup {h h2 : Heap} (he : h.Extends h2) :
    ∀ (a : Nat) (d : DHT), h[a]? = some d → ∃ d2, h2[a]? = some d2 ∧ d.Extends d2 := by
  induction he with
  | nil => intro a d hd; simp at hd
  | cons hd _ ih =>
    intro a d hget
    cases a with
    | zero =>
      simp only [List.getElem?_cons_zero, Option.some.injEq] at hget
      subst hget
      exact ⟨_, by simp, hd⟩
    | succ a =>
      simp only [List.getElem?_cons_succ] at hget ⊢
      exact ih a d hget

theorem Heap.Extends.lookup_back {h h2 : Heap} (he : h.Extends h2) :
    ∀ (a : Nat) (d2 : DHT), h2[a]? = some d2 → ∃ d, h[a]? = some d ∧ d.Extends d2 := by
  induction he with
  | nil => intro a d hd; simp at hd
  | cons hd _ ih =>
    intro a d hget
    cases a with
    | zero =>
      simp only [List.getElem?_cons_zero, Option.some.injEq] at hget
      subst hget
      exact ⟨_, by simp, hd⟩
    | succ a =>
      simp only [List.getElem?_cons_succ] at hget ⊢
      exact ih a d hget

theorem Heap.Extends.lacking_le {h h2 : Heap} (key : String) (he : h.Extends h2) :
    Heap.lacking key h2 ≤ Heap.lacking key h := by
  unfold Heap.lacking
  induction he with
  | nil => simp
  | @cons d d2 t t2 hd _ ih =>
    simp only [List.countP_cons]
    have hle : (if (d2.store.get key).isNone = true then 1 else 0) ≤
        (if (d.store.get key).isNone = true then 1 else 0) := by
      cases hg : d.store.get key with
      | none => simp; split <;> omega
      | some v => simp [hd.2 key v hg]
    omega

theorem Heap.Extends.linked {h h2 : Heap} (he : h.Extends h2) (hl : h.Linked) : h2.Linked := by
  intro d2 hd2 m hm
  obtain ⟨a, hget2⟩ := List.getElem?_of_mem hd2
  obtain ⟨d, hd, hext⟩ := he.lookup_back a d2 hget2
  have hmem : d ∈ h := List.getElem?_mem hd
  rw [he.length_eq]
  exact hl d hmem m (by rw [← hext.1]; exact hm)

/-- The one write of `SetValue`: storing under a key the object does not hold. -/
theorem Heap.extends_of_store (h : Heap) (a : Nat) (d : DHT) (key : String) (value : ByteSlice)
    (hd : h[a]? = some d) (hnone : d.store.get key = none) :
    h.Extends (h.set a { store := d.store.set key value, nodes := d.nodes }) := by
  induction h generalizing a with
  | nil => simp at hd
  | cons x rest ih =>
    cases a with
    | zero =>
      simp only [List.getElem?_cons_zero, Option.some.injEq] at hd
      subst hd
      refine List.Forall₂.cons ⟨rfl, fun k v hk => ?_⟩ (Heap.extends_refl rest)
      by_cases hkk : k = key
      · subst hkk; rw [hnone] at hk; cases hk
      · simpa [Store.get_set_of_ne _ _ _ _ hkk] using hk
    | succ a =>
      simp only [List.getElem?_cons_succ] at hd
      exact List.Forall₂.cons (DHT.extends_self x) (ih a hd)

theorem Heap.lacking_store (h : Heap) (a : Nat) (d : DHT) (key : String) (value : ByteSlice)
    (hd : h[a]? = some d) (hnone : d.store.get key = none) :
    Heap.lacking key (h.set a { store := d.store.set key value, nodes := d.nodes }) + 1 =
      Heap.lacking key h := by
  unfold Heap.lacking
  induction h generalizing a with
  | nil => simp at hd
  | cons x rest ih =>
    cases a with
    | zero =>
      simp only [List.getElem?_cons_zero, Option.some.injEq] at hd
      subst hd
      simp [List.countP_cons, hnone, Store.get_set_self]
    | succ a =>
      simp only [List.getElem?_cons_succ] at hd
      have := ih a hd
      simp only [List.set_cons_succ, List.countP_cons]
      omega

theorem Heap.lacking_le_length (key : String) (h : Heap) : Heap.lacking key h ≤ h.length :=
  List.countP_le_length _

/-! ## A relation kept by every write is kept by every run -/

theorem forNodes_rel (R : Heap → Heap → Prop) (hrefl : ∀ h, R h h)
    (htrans : ∀ h1 h2 h3, R h1 h2 → R h2 h3 → R h1 h3)
    (call : World → Node → Except Fault (Bool × World))
    (hcall : ∀ w n b w2, call w n = .ok (b, w2) → R w.heap w2.heap) :
    ∀ (nodes : List Node) (w w2 : World), forNodes call nodes w = .ok w2 → R w.heap w2.heap := by
  intro nodes
  induction nodes with
  | nil =>
    intro w w2 h
    simp only [forNodes, Except.ok.injEq] at h
    subst h
    exact hrefl _
  | cons node rest ih =>
    intro w w2 h
    simp only [forNodes] at h
    split at h
    · cases h
    · next b w1 hc => exact htrans _ _ _ (hcall w node b w1 hc) (ih w1 w2 h)

theorem SetValue_rel (sel : DhtSelector) (key : String) (value : ByteSlice)
    (R : Heap → Heap → Prop) (hrefl : ∀ h, R h h)
    (htrans : ∀ h1 h2 h3, R h1 h2 → R h2 h3 → R h1 h3)
    (hstore : ∀ (h : Heap) (a : Nat) (d : DHT), h[a]? = some d → d.store.get key = none →
      hexSum256 value = key →
      R h (h.set a { store := d.store.set key value, nodes := d.nodes })) :
    ∀ (fuel : Nat) (w : World) (n : Node) (b : Bool) (w2 : World),
      Node.SetValue sel fuel w n key value = .ok (b, w2) → R w.heap w2.heap := by
  intro fuel
  induction fuel with
  | zero => intro w n b w2 h; simp [Node.SetValue] at h
  | succ fuel ih =>
    intro w n b w2 h
    simp only [Node.SetValue] at h
    split at h
    · simp only [Except.ok.injEq, Prod.mk.injEq] at h
      rw [← h.2]; exact hrefl _
    · next hk =>
      have hkey : hexSum256 value = key := by simpa using hk
      split at h
      · cases h
      · next d hd =>
        split at h
        · simp only [Except.ok.injEq, Prod.mk.injEq] at h
          rw [← h.2]; exact hrefl _
        · next hnone =>
          split at h
          · cases h
          · next ns hsel =>
            split at h
            · cases h
            · next w3 hloop =>
              simp only [Except.ok.injEq, Prod.mk.injEq] at h
              rw [← h.2]
              have h1 := forNodes_rel R hrefl htrans _ (fun w n b w2 hc => ih w n b w2 hc)
                ns _ w3 hloop
              exact htrans _ _ _ (hstore w.heap n.dht d hd hnone hkey) h1

theorem SetValue_extends (sel : DhtSelector) (key : String) (value : ByteSlice)
    (fuel : Nat) (w : World) (n : Node) (b : Bool) (w2 : World)
    (h : Node.SetValue sel fuel w n key value = .ok (b, w2)) : w.heap.Extends w2.heap :=
  SetValue_rel sel key value Heap.Extends Heap.extends_refl
    (fun _ _ _ h12 h23 => h12.trans h23)
    (fun h a d hd hnone _ => Heap.extends_of_store h a d key value hd hnone) fuel w n b w2 h

end DHT_demo

namespace DHT_demo

/-! ## `SetValue`: integrity of the stores -/

theorem Heap.verified_of_store (h : Heap) (a : Nat) (d : DHT) (key : String) (value : ByteSlice)
    (hkey : hexSum256 value = key) (hv : h.Verified) (hd : h[a]? = some d) :
    Heap.Verified (h.set a { store := d.store.set key value, nodes := d.nodes }) := by
  intro d2 hd2
  rcases List.mem_or_eq_of_mem_set hd2 with hmem | heq
  · exact hv d2 hmem
  · subst heq
    intro k v hk
    by_cases hkk : k = key
    · subst hkk
      rw [Store.get_set_self] at hk
      cases hk
      exact hkey
    · rw [Store.get_set_of_ne _ _ _ _ hkk] at hk
      exact hv d (List.getElem?_mem hd) k v hk

theorem Heap.verified_append_empty (h : Heap) (hv : h.Verified) :
    Heap.Verified (h ++ [{ store := [], nodes := [] }]) := by
  intro d hd
  rcases List.mem_append.mp hd with hmem | hnew
  · exact hv d hmem
  · simp only [List.mem_singleton] at hnew
    subst hnew
    intro k v hk
    simp [Store.get, List.lookup] at hk

/-- C5. Store integrity is an invariant. The heap with no object satisfies it, `NewNode` and
`NewPeer` keep it (the stores they make are empty), and whenever every entry of every store
is keyed by the lowercase hexadecimal SHA-256 of its value before a call of `SetValue`, the
same holds of every store after the call returns, for every key, value, node, selection and
recursion budget. -/
theorem SetValue_preserves_store_integrity :
    Heap.Verified [] ∧
    (∀ (h : Heap) (id : String), h.Verified → (NewNode h id).2.Verified) ∧
    (∀ (h : Heap) (id : String), h.Verified → (NewPeer h id).2.Verified) ∧
    (∀ (sel : DhtSelector) (fuel : Nat) (w : World) (n : Node) (key : String)
      (value : ByteSlice) (b : Bool) (w2 : World),
      w.heap.Verified → Node.SetValue sel fuel w n key value = .ok (b, w2) →
      w2.heap.Verified) := by
  refine ⟨fun d hd => by simp at hd, fun h _ hv => Heap.verified_append_empty h hv,
    fun h _ hv => Heap.verified_append_empty h hv, ?_⟩
  intro sel fuel w n key value b w2 hv hrun
  exact SetValue_rel sel key value (fun h h2 => h.Verified → h2.Verified)
    (fun _ hx => hx) (fun _ _ _ h12 h23 hx => h23 (h12 hx))
    (fun h a d hd _ hkey hx => Heap.verified_of_store h a d key value hkey hx hd)
    fuel w n b w2 hrun hv

theorem SetValue_preserves_store_integrity_witness :
    Heap.Verified (NewNode (NewNode [] "0a").2 "0b").2 ∧
    Node.SetValue listedNodes 3
        { heap := [{ store := [], nodes := [{ id := "0b", dht := 1 }] },
                   { store := [], nodes := [{ id := "0a", dht := 0 }] }], trace := [] }
        { id := "0a", dht := 0 } abcKey abc =
      .ok (true,
        { heap := [{ store := [(abcKey, abc)], nodes := [{ id := "0b", dht := 1 }] },
                   { store := [(abcKey, abc)], nodes := [{ id := "0a", dht := 0 }] }],
          trace := [Event.setValue { id := "0a", dht := 0 } abcKey abc,
                    Event.select 0 "0a" 2,
                    Event.setValue { id := "0b", dht := 1 } abcKey abc,
                    Event.select 1 "0b" 2,
                    Event.setValue { id := "0a", dht := 0 } abcKey abc] }) ∧
    Heap.Verified [{ store := [(abcKey, abc)], nodes := [{ id := "0b", dht := 1 }] },
                   { store := [(abcKey, abc)], nodes := [{ id := "0a", dht := 0 }] }] := by
  have hrun : Node.SetValue listedNodes 3
        { heap := [{ store := [], nodes := [{ id := "0b", dht := 1 }] },
                   { store := [], nodes := [{ id := "0a", dht := 0 }] }], trace := [] }
        { id := "0a", dht := 0 } abcKey abc =
      .ok (true,
        { heap := [{ store := [(abcKey, abc)], nodes := [{ id := "0b", dht := 1 }] },
                   { store := [(abcKey, abc)], nodes := [{ id := "0a", dht := 0 }] }],
          trace := [Event.setValue { id := "0a", dht := 0 } abcKey abc,
                    Event.select 0 "0a" 2,
                    Event.setValue { id := "0b", dht := 1 } abcKey abc,
                    Event.select 1 "0b" 2,
                    Event.setValue { id := "0a", dht := 0 } abcKey abc] }) := by decide
  have hstart : Heap.Verified [{ store := [], nodes := [{ id := "0b", dht := 1 }] },
                   { store := [], nodes := [{ id := "0a", dht := 0 }] }] := by
    intro d hd k v hk
    simp only [List.mem_cons, List.mem_singleton, List.not_mem_nil, or_false] at hd
    rcases hd with rfl | rfl <;> simp [Store.get, List.lookup] at hk
  exact ⟨SetValue_preserves_store_integrity.2.1 _ "0b"
      (SetValue_preserves_store_integrity.2.1 [] "0a" SetValue_preserves_store_integrity.1),
    hrun, SetValue_preserves_store_integrity.2.2.2 listedNodes 3 _ _ abcKey abc true _ hstart hrun⟩

end DHT_demo

namespace DHT_demo

/-! ## `SetValue` returns -/

theorem forNodes_total (call : World → Node → Except Fault (Bool × World)) (key : String)
    (fuel : Nat)
    (hcall : ∀ (w : World) (n : Node), w.heap.Linked → n.dht < w.heap.length →
      Heap.lacking key w.heap < fuel → ∃ b w2, call w n = .ok (b, w2) ∧ w.heap.Extends w2.heap) :
    ∀ (nodes : List Node) (w : World), w.heap.Linked → (∀ m ∈ nodes, m.dht < w.heap.length) →
      Heap.lacking key w.heap < fuel → ∃ w2, forNodes call nodes w = .ok w2 := by
  intro nodes
  induction nodes with
  | nil => intro w _ _ _; exact ⟨w, rfl⟩
  | cons node rest ih =>
    intro w hl hnodes hfuel
    obtain ⟨b, w1, hc, hext⟩ := hcall w node hl (hnodes node (List.mem_cons_self _ _)) hfuel
    have hlen := hext.length_eq
    obtain ⟨w2, h2⟩ := ih w1 (hext.linked hl)
      (fun m hm => by rw [hlen]; exact hnodes m (List.mem_cons_of_mem _ hm))
      (Nat.lt_of_le_of_lt (hext.lacking_le key) hfuel)
    exact ⟨w2, by simp only [forNodes, hc, h2]⟩

theorem SetValue_total (sel : DhtSelector) (hsel : sel.Sound) (value : ByteSlice) :
    ∀ (fuel : Nat) (w : World) (n : Node), w.heap.Linked → n.dht < w.heap.length →
      Heap.lacking (hexSum256 value) w.heap < fuel →
      ∃ w2, Node.SetValue sel fuel w n (hexSum256 value) value = .ok (true, w2) := by
  intro fuel
  induction fuel with
  | zero => intro w n _ _ hf; omega
  | succ fuel ih =>
    intro w n hl hn hf
    have hd : w.heap[n.dht]? = some (w.heap[n.dht]) := List.getElem?_eq_getElem hn
    cases hget : (w.heap[n.dht]).store.get (hexSum256 value) with
    | some old =>
      exact ⟨{ heap := w.heap, trace := w.trace ++ [Event.setValue n (hexSum256 value) value] },
        by simp only [Node.SetValue, bne_self_eq_false, Bool.false_eq_true, if_false, hd, hget]⟩
    | none =>
      have hext := Heap.extends_of_store w.heap n.dht _ (hexSum256 value) value hd hget
      have hlack := Heap.lacking_store w.heap n.dht _ (hexSum256 value) value hd hget
      have hlen := hext.length_eq
      obtain ⟨ns, hns, hvalid⟩ := hsel _ n.dht n.id 2 (hext.linked hl) (by rw [hlen]; exact hn)
      obtain ⟨w3, h3⟩ := forNodes_total
        (fun w node => Node.SetValue sel fuel w node (hexSum256 value) value) (hexSum256 value)
        fuel
        (fun w1 m hl1 hm hf1 => by
          obtain ⟨w2, h2⟩ := ih w1 m hl1 hm hf1
          exact ⟨true, w2, h2, SetValue_extends sel _ value fuel w1 m true w2 h2⟩)
        ns { heap := w.heap.set n.dht
               { store := (w.heap[n.dht]).store.set (hexSum256 value) value,
                 nodes := (w.heap[n.dht]).nodes },
             trace := (w.trace ++ [Event.setValue n (hexSum256 value) value]) ++
               [Event.select n.dht n.id 2] }
        (hext.linked hl) hvalid
        (by
          show Heap.lacking (hexSum256 value) (w.heap.set n.dht
            { store := (w.heap[n.dht]).store.set (hexSum256 value) value,
              nodes := (w.heap[n.dht]).nodes }) < fuel
          omega)
      exact ⟨w3, by simp only [Node.SetValue, bne_self_eq_false, Bool.false_eq_true, if_false,
        hd, hget, hns, h3]⟩

theorem listedNodes_sound : DhtSelector.Sound listedNodes := by
  intro h a nodeId k hl ha
  refine ⟨(h[a]).nodes, by simp [listedNodes, List.getElem?_eq_getElem ha], fun m hm => ?_⟩
  exact hl (h[a]) (List.getElem_mem ha) m hm

/-- C4. Self-store success. On a heap without nil `dht` pointers, with a selection that does
not panic and returns nodes without nil `dht` pointers, `SetValue` of a record whose key is
the lowercase hexadecimal SHA-256 of its value returns true on every node, as soon as the
recursion budget exceeds the number of `DHT` objects: however many nodes the selection
returns and whatever the calls on them return. In particular it returns true on a node just
made by `NewNode`, which lists no other node. -/
theorem SetValue_returns_true :
    (∀ (sel : DhtSelector) (w : World) (n : Node) (key : String) (value : ByteSlice)
      (fuel : Nat), sel.Sound → hexSum256 value = key → w.heap.Linked →
      n.dht < w.heap.length → w.heap.length < fuel →
      ∃ w2, Node.SetValue sel fuel w n key value = .ok (true, w2)) ∧
    (∀ (sel : DhtSelector) (id key : String) (value : ByteSlice), sel.Sound →
      hexSum256 value = key →
      ∃ w2, Node.SetValue sel 2 { heap := (NewNode [] id).2, trace := [] } (NewNode [] id).1
        key value = .ok (true, w2)) := by
  have main : ∀ (sel : DhtSelector) (w : World) (n : Node) (key : String) (value : ByteSlice)
      (fuel : Nat), sel.Sound → hexSum256 value = key → w.heap.Linked →
      n.dht < w.heap.length → w.heap.length < fuel →
      ∃ w2, Node.SetValue sel fuel w n key value = .ok (true, w2) := by
    intro sel w n key value fuel hsel hkey hl hn hf
    subst hkey
    exact SetValue_total sel hsel value fuel w n hl hn
      (Nat.lt_of_le_of_lt (Heap.lacking_le_length _ _) hf)
  refine ⟨main, fun sel id key value hsel hkey => ?_⟩
  refine main sel _ _ key value 2 hsel hkey ?_ ?_ ?_
  · intro d hd m hm
    simp only [NewNode, List.nil_append, List.mem_singleton] at hd
    subst hd
    simp at hm
  · simp [NewNode]
  · simp [NewNode]

theorem SetValue_returns_true_witness :
    hexSum256 abc = abcKey ∧
    (∃ w2, Node.SetValue listedNodes 2 { heap := (NewNode [] "0a").2, trace := [] }
      (NewNode [] "0a").1 abcKey abc = .ok (true, w2)) ∧
    Heap.Linked [{ store := [], nodes := [{ id := "0b", dht := 1 }, { id := "0a", dht := 0 }] },
                 { store := [], nodes := [{ id := "0a", dht := 0 }] }] ∧
    ∃ w2, Node.SetValue listedNodes 3
      { heap := [{ store := [], nodes := [{ id := "0b", dht := 1 }, { id := "0a", dht := 0 }] },
                 { store := [], nodes := [{ id := "0a", dht := 0 }] }], trace := [] }
      { id := "0a", dht := 0 } abcKey abc = .ok (true, w2) := by
  have hl : Heap.Linked
      [{ store := [], nodes := [{ id := "0b", dht := 1 }, { id := "0a", dht := 0 }] },
       { store := [], nodes := [{ id := "0a", dht := 0 }] }] := by
    unfold Heap.Linked
    decide
  exact ⟨by decide,
    SetValue_returns_true.2 listedNodes "0a" abcKey abc listedNodes_sound (by decide), hl,
    SetValue_returns_true.1 listedNodes _ { id := "0a", dht := 0 } abcKey abc 3
      listedNodes_sound (by decide) hl (by decide) (by decide)⟩

/-! ## Put, then Get -/

/-- C1, amended. When the store of node `n` holds no entry under `key`, or holds `value`
under it, then after `n.SetValue(key, value)` has returned true, `GetValue(key)` on a peer
backed by the `DHT` object of `n` returns exactly `value`. -/
theorem GetValue_after_SetValue (sel : DhtSelector) (S : SliceSorter) (G : SliceGrower)
    (nodeGet : NodeGetter)
    (fuel : Nat) (w w2 : World) (n : Node) (p : Peer) (key : String) (value : ByteSlice)
    (hprior : ∀ d old, w.heap[n.dht]? = some d → d.store.get key = some old → old = value)
    (hrun : Node.SetValue sel fuel w n key value = .ok (true, w2))
    (hp : p.dht = n.dht) :
    Peer.GetValue S G nodeGet w2.heap p key = .ok value := by
  cases fuel with
  | zero => simp [Node.SetValue] at hrun
  | succ fuel =>
    simp only [Node.SetValue] at hrun
    split at hrun
    · simp at hrun
    · split at hrun
      · cases hrun
      · next d hd =>
        split at hrun
        · next old hold =>
          simp only [Except.ok.injEq, Prod.mk.injEq, true_and] at hrun
          subst hrun
          have := hprior d old hd hold
          subst this
          simp [Peer.GetValue, hp, hd, hold]
        · next hnone =>
          split at hrun
          · cases hrun
          · next ns hsel =>
            split at hrun
            · cases hrun
            · next w3 hloop =>
              simp only [Except.ok.injEq, Prod.mk.injEq, true_and] at hrun
              subst hrun
              have hext : Heap.Extends _ w3.heap :=
                forNodes_rel Heap.Extends Heap.extends_refl (fun _ _ _ h12 h23 => h12.trans h23)
                  _ (fun w1 m b w4 hc => SetValue_extends sel key value fuel w1 m b w4 hc)
                  ns _ w3 hloop
              have hlt : n.dht < w.heap.length := by
                rcases Nat.lt_or_ge n.dht w.heap.length with h | h
                · exact h
                · rw [List.getElem?_eq_none h] at hd; cases hd
              obtain ⟨d2, hd2, hdext⟩ := hext.lookup n.dht
                { store := d.store.set key value, nodes := d.nodes }
                (by simp [List.getElem?_set_self, hlt])
              have hval := hdext.2 key value (Store.get_set_self _ _ _)
              simp [Peer.GetValue, hp, hd2, hval]

theorem GetValue_after_SetValue_witness :
    Node.SetValue listedNodes 2
        { heap := [{ store := [], nodes := [{ id := "0a", dht := 0 }] }], trace := [] }
        { id := "0a", dht := 0 } abcKey abc =
      .ok (true,
        { heap := [{ store := [(abcKey, abc)], nodes := [{ id := "0a", dht := 0 }] }],
          trace := [Event.setValue { id := "0a", dht := 0 } abcKey abc, Event.select 0 "0a" 2,
                    Event.setValue { id := "0a", dht := 0 } abcKey abc] }) ∧
    Peer.GetValue insertionSorter gcGrower noAnswer
        [{ store := [(abcKey, abc)], nodes := [{ id := "0a", dht := 0 }] }]
        { kbucket := NewKBucket, dht := 0 } abcKey = .ok abc := by
  have hrun : Node.SetValue listedNodes 2
        { heap := [{ store := [], nodes := [{ id := "0a", dht := 0 }] }], trace := [] }
        { id := "0a", dht := 0 } abcKey abc =
      .ok (true,
        { heap := [{ store := [(abcKey, abc)], nodes := [{ id := "0a", dht := 0 }] }],
          trace := [Event.setValue { id := "0a", dht := 0 } abcKey abc, Event.select 0 "0a" 2,
                    Event.setValue { id := "0a", dht := 0 } abcKey abc] }) := by decide
  refine ⟨hrun, GetValue_after_SetValue listedNodes insertionSorter gcGrower noAnswer 2 _ _
    { id := "0a", dht := 0 } { kbucket := NewKBucket, dht := 0 } abcKey abc ?_ hrun rfl⟩
  intro d old hd hold
  simp only [List.getElem?_cons_zero, Option.some.injEq] at hd
  subst hd
  simp [Store.get, List.lookup] at hold

/-- C1 as stated fails: the store of the node holds the one byte "x" under the SHA-256 key of
"abc"; `SetValue` of "abc" under that key returns true and leaves the entry, and `GetValue`
returns "x", not "abc". -/
theorem GetValue_after_SetValue_stale_entry :
    hexSum256 abc = abcKey ∧
    Node.SetValue listedNodes 1
        { heap := [{ store := [(abcKey, some [120])], nodes := [] }], trace := [] }
        { id := "0a", dht := 0 } abcKey abc =
      .ok (true, { heap := [{ store := [(abcKey, some [120])], nodes := [] }],
                   trace := [Event.setValue { id := "0a", dht := 0 } abcKey abc] }) ∧
    Peer.GetValue insertionSorter gcGrower noAnswer [{ store := [(abcKey, some [120])], nodes := [] }]
        { kbucket := NewKBucket, dht := 0 } abcKey = .ok (some [120]) ∧
    (some [120] : ByteSlice) ≠ abc := by
  decide

end DHT_demo

namespace DHT_demo

/-! ## Closest-node selection -/

theorem appendSlice_elems (G : SliceGrower) (s : List Node × Nat) (xs : List Node) :
    (appendSlice G s xs).1 = s.1 ++ xs := by
  unfold appendSlice
  split <;> rfl

theorem appendSlice_length_le (G : SliceGrower) (s : List Node × Nat) (xs : List Node) :
    (appendSlice G s xs).1.length ≤ (appendSlice G s xs).2 := by
  unfold appendSlice
  split
  · next h => simpa using h
  · simpa using G.fits s.2 (s.1.length + xs.length)

theorem appendBuckets_ok (G : SliceGrower) (bs : List (Option Bucket)) :
    ∀ (s r : List Node × Nat), appendBuckets G bs s = .ok r →
      r.1 = s.1 ++ KBucket.contacts { buckets := bs } ∧ (s.1.length ≤ s.2 → r.1.length ≤ r.2) := by
  induction bs with
  | nil =>
    intro s r h
    simp only [appendBuckets, Except.ok.injEq] at h
    subst h
    simp [KBucket.contacts]
  | cons b rest ih =>
    intro s r h
    cases b with
    | none => simp [appendBuckets] at h
    | some bucket =>
      simp only [appendBuckets] at h
      obtain ⟨h1, h2⟩ := ih _ r h
      refine ⟨?_, fun _ => h2 (appendSlice_length_le G s bucket.nodes)⟩
      rw [h1, appendSlice_elems]
      simp only [KBucket.contacts, List.flatMap_cons, List.append_assoc]

theorem appendBuckets_allocated (G : SliceGrower) (bs : List (Option Bucket))
    (hb : ∀ b ∈ bs, b ≠ none) :
    ∀ (s : List Node × Nat), ∃ r, appendBuckets G bs s = .ok r := by
  induction bs with
  | nil => intro s; exact ⟨s, rfl⟩
  | cons b rest ih =>
    intro s
    cases b with
    | none => exact absurd rfl (hb none (List.mem_cons_self _ _))
    | some bucket =>
      simp only [appendBuckets]
      exact ih (fun b hmem => hb b (List.mem_cons_of_mem _ hmem)) _

theorem lessByDistance_asymm (target : String) (a b : Node)
    (h : lessByDistance target a b = true) : lessByDistance target b a = false := by
  simp only [lessByDistance, decide_eq_true_eq, decide_eq_false_iff_not] at h ⊢
  omega

theorem lessByDistance_negTrans (target : String) (a b c : Node)
    (hab : lessByDistance target a b = false) (hbc : lessByDistance target b c = false) :
    lessByDistance target a c = false := by
  simp only [lessByDistance, decide_eq_false_iff_not] at hab hbc ⊢
  omega

theorem sort_pairwise_distance (S : SliceSorter) (target : String) (l : List Node) :
    List.Pairwise (fun a b => calculateDistance a.id target ≤ calculateDistance b.id target)
      (S.sort (lessByDistance target) l) := by
  refine List.Pairwise.imp ?_ (S.sorted (lessByDistance target) l
    (lessByDistance_asymm target) (lessByDistance_negTrans target))
  intro a b h
  simp only [lessByDistance, decide_eq_false_iff_not] at h
  omega

/-- The first `m` entries of an array holding `l` and then `k` nil pointers. -/
theorem take_padded {α : Type} (l : List α) (k m : Nat) :
    (l.map some ++ List.replicate k none).take m =
      (l.take m).map some ++ List.replicate (min (m - l.length) k) (none : Option α) := by
  rw [List.take_append_eq_append_take, List.length_map, List.take_replicate, List.map_take]

theorem padded_reduceOption {α : Type} (l : List α) (k : Nat) :
    (l.map some ++ List.replicate k (none : Option α)).reduceOption = l := by
  induction l with
  | nil =>
    induction k with
    | zero => rfl
    | succ k ih =>
      simp only [List.map_nil, List.nil_append, List.replicate_succ] at ih ⊢
      rw [List.reduceOption_cons_of_none]
      exact ih
  | cons x rest ih =>
    simp only [List.map_cons, List.cons_append]
    rw [List.reduceOption_cons_of_some, ih]

theorem padded_getElem? {α : Type} (l : List α) (k i : Nat) (x : α)
    (h : (l.map some ++ List.replicate k (none : Option α))[i]? = some (some x)) :
    l[i]? = some x := by
  rcases Nat.lt_or_ge i l.length with hi | hi
  · rw [List.getElem?_append_left (by simpa using hi)] at h
    simpa using h
  · rw [List.getElem?_append_right (by simpa using hi)] at h
    obtain ⟨_, hget⟩ := List.getElem?_eq_some.mp h
    simp at hget

theorem padded_mem {α : Type} (l : List α) (k : Nat) (x : α) :
    some x ∈ l.map some ++ List.replicate k (none : Option α) ↔ x ∈ l := by
  simp [List.mem_replicate]

/-- What a returned sequence is: the first `n` of the sorted contacts, and then nil entries
when `n` exceeds their number. -/
theorem selectClosestNodes_ok (S : SliceSorter) (G : SliceGrower) (kb : KBucket)
    (nodes : List Node) (store : Store) (target : String) (n : Int) (r : List (Option Node))
    (h : kb.selectClosestNodes S G nodes store target n = .ok r) :
    0 ≤ n ∧ ∃ pad : Nat,
      r = ((S.sort (lessByDistance target) kb.contacts).take n.toNat).map some ++
        List.replicate pad none ∧
      pad = n.toNat - kb.contacts.length := by
  simp only [KBucket.selectClosestNodes] at h
  split at h
  · cases h
  · next all cap hall =>
    obtain ⟨hc, hcap⟩ := appendBuckets_ok G kb.buckets ([], 0) (all, cap) hall
    simp only [List.nil_append] at hc
    subst hc
    have hcap2 : kb.contacts.length ≤ cap := hcap (by simp)
    have hlen : (S.sort (lessByDistance target) kb.contacts).length = kb.contacts.length :=
      (S.perm _ _).length_eq
    simp only [sliceTo] at h
    split at h
    · next hb =>
      simp only [Except.ok.injEq] at h
      rw [take_padded, hlen] at h
      refine ⟨hb.1, _, h.symm, ?_⟩
      omega
    · cases h

/-- When a sequence of contacts is returned: every bucket allocated and `0 ≤ n ≤` the number
of contacts. -/
theorem selectClosestNodes_returns (S : SliceSorter) (G : SliceGrower) (kb : KBucket)
    (nodes : List Node) (store : Store) (target : String) (n : Int)
    (hb : ∀ b ∈ kb.buckets, b ≠ none) (h0 : 0 ≤ n) (hn : n ≤ (kb.contacts.length : Int)) :
    kb.selectClosestNodes S G nodes store target n =
      .ok (((S.sort (lessByDistance target) kb.contacts).take n.toNat).map some) := by
  obtain ⟨⟨all, cap⟩, happ⟩ := appendBuckets_allocated G kb.buckets hb ([], 0)
  obtain ⟨hc, hcap⟩ := appendBuckets_ok G kb.buckets ([], 0) (all, cap) happ
  simp only [List.nil_append] at hc
  subst hc
  have hcap2 : kb.contacts.length ≤ cap := hcap (by simp)
  have hlen : (S.sort (lessByDistance target) kb.contacts).length = kb.contacts.length :=
    (S.perm _ _).length_eq
  simp only [KBucket.selectClosestNodes, happ, sliceTo]
  rw [if_pos ⟨h0, by omega⟩, take_padded, hlen]
  have hpad : min (n.toNat - kb.contacts.length) (cap - kb.contacts.length) = 0 := by omega
  rw [hpad]
  simp

/-- The contacts of a returned sequence are in ascending order of distance. -/
theorem selectClosestNodes_pairwise (S : SliceSorter) (G : SliceGrower) (kb : KBucket)
    (nodes : List Node) (store : Store) (target : String) (n : Int) (r : List (Option Node))
    (h : kb.selectClosestNodes S G nodes store target n = .ok r) :
    List.Pairwise (fun a b => calculateDistance a.id target ≤ calculateDistance b.id target)
      r.reduceOption := by
  obtain ⟨_, pad, hr, _⟩ := selectClosestNodes_ok S G kb nodes store target n r h
  rw [hr, padded_reduceOption]
  exact (sort_pairwise_distance S target kb.contacts).sublist (List.take_sublist _ _)

/-- C6, at the failing input: the buckets `[0a 03]` and `[01]`, the target "02" and `n = 4`.
The two appends leave `closestNodes` with length 3 and capacity 4 in the gc runtime, so
`closestNodes[:4]` is within bounds and the result, for every sorter, is the three sorted
contacts and then a nil `*Node`: position 3 holds no node whose distance could be compared,
where the claim has every pair of positions ordered by distance. -/
theorem selectClosestNodes_returns_nil_entry (S : SliceSorter) :
    KBucket.selectClosestNodes S gcGrower
        { buckets := [some { nodes := [{ id := "0a", dht := 0 }, { id := "03", dht := 1 }] },
                      some { nodes := [{ id := "01", dht := 2 }] }] } [] [] "02" 4 =
      .ok ((S.sort (lessByDistance "02")
          [{ id := "0a", dht := 0 }, { id := "03", dht := 1 }, { id := "01", dht := 2 }]).map some
        ++ [none]) ∧
    KBucket.selectClosestNodes insertionSorter gcGrower
        { buckets := [some { nodes := [{ id := "0a", dht := 0 }, { id := "03", dht := 1 }] },
                      some { nodes := [{ id := "01", dht := 2 }] }] } [] [] "02" 4 =
      .ok [some { id := "03", dht := 1 }, some { id := "01", dht := 2 },
           some { id := "0a", dht := 0 }, none] := by
  have hlen : (S.sort (lessByDistance "02")
      [({ id := "0a", dht := 0 } : Node), { id := "03", dht := 1 },
        { id := "01", dht := 2 }]).length = 3 := (S.perm _ _).length_eq
  have hgrow1 : gcGrower.grow 0 2 = 2 := by decide
  have hgrow2 : gcGrower.grow 2 3 = 4 := by decide
  refine ⟨?_, by decide⟩
  simp only [KBucket.selectClosestNodes, appendBuckets, appendSlice, List.length_nil,
    List.length_cons, List.nil_append, Nat.zero_add, Nat.reduceAdd, Nat.reduceLeDiff,
    if_false, hgrow1, hgrow2, List.cons_append, sliceTo, hlen]
  rw [if_pos (by decide), take_padded, hlen]
  simp [List.take_of_length_le, hlen]

/-- C7, at the failing input: one allocated bucket holding no contact, and `n = 2`. With any
sorter and any runtime `closestNodes` is the nil slice, of capacity 0, the slice expression
`closestNodes[:2]` is out of range and the call panics, where the claim has it return the
`min(2, 0) = 0` known contacts. The same happens in the gc runtime with one bucket holding
one contact, where the capacity is 1. -/
theorem selectClosestNodes_panics_beyond_contacts (S : SliceSorter) :
    (∀ G : SliceGrower,
      KBucket.selectClosestNodes S G { buckets := [some NewBucket] } [] [] "00" 2 =
        .error Fault.sliceBounds) ∧
    KBucket.selectClosestNodes S gcGrower
        { buckets := [some { nodes := [{ id := "0a", dht := 0 }] }] } [] [] "00" 2 =
      .error Fault.sliceBounds := by
  have hgrow : gcGrower.grow 0 1 = 1 := by decide
  constructor
  · intro G
    simp [KBucket.selectClosestNodes, appendBuckets, appendSlice, NewBucket, sliceTo]
  · simp [KBucket.selectClosestNodes, appendBuckets, appendSlice, sliceTo, hgrow]

/-- C8, at the failing input: on the table `NewKBucket` makes, whose `K` buckets are nil
pointers, `selectClosestNodes` panics on the first bucket for every target and every `n`,
where the claim has it return the empty sequence. -/
theorem selectClosestNodes_panics_on_NewKBucket (S : SliceSorter) (G : SliceGrower)
    (nodes : List Node) (store : Store) (target : String) (n : Int) :
    NewKBucket.selectClosestNodes S G nodes store target n = .error Fault.nilDereference := by
  simp [KBucket.selectClosestNodes, NewKBucket, K, List.replicate, appendBuckets]

/-- C9. A sequence `r` that `selectClosestNodes` returns is drawn from all buckets and is a
choice of closest contacts: it has `n` entries, each node in it occurs in some bucket, its
nodes are a sub-multiset of the concatenation of all buckets, and the contacts left out
(`rest`, which with the nodes of `r` makes up that concatenation) hold none strictly closer
to the target than a node of `r`. On a table with at least `n` contacts every entry of `r`
is a node, so `r` is `n` globally closest contacts; and a sequence is returned whenever
every bucket is allocated and `0 ≤ n ≤` the number of contacts. -/
theorem selectClosestNodes_globally_closest :
    (∀ (S : SliceSorter) (G : SliceGrower) (kb : KBucket) (nodes : List Node) (store : Store)
      (target : String) (n : Int) (r : List (Option Node)),
      kb.selectClosestNodes S G nodes store target n = .ok r →
      (r.length : Int) = n ∧
      (∀ x, some x ∈ r → ∃ bucket, some bucket ∈ kb.buckets ∧ x ∈ bucket.nodes) ∧
      r.reduceOption.Subperm kb.contacts ∧
      (∃ rest, (r.reduceOption ++ rest).Perm kb.contacts ∧
        ∀ x ∈ r.reduceOption, ∀ y ∈ rest,
          ¬ calculateDistance y.id target < calculateDistance x.id target) ∧
      (n ≤ (kb.contacts.length : Int) → r = r.reduceOption.map some)) ∧
    (∀ (S : SliceSorter) (G : SliceGrower) (kb : KBucket) (nodes : List Node) (store : Store)
      (target : String) (n : Int), (∀ b ∈ kb.buckets, b ≠ none) → 0 ≤ n →
      n ≤ (kb.contacts.length : Int) →
      ∃ r, kb.selectClosestNodes S G nodes store target n = .ok r) := by
  refine ⟨?_, fun S G kb nodes store target n hb h0 hn =>
    ⟨_, selectClosestNodes_returns S G kb nodes store target n hb h0 hn⟩⟩
  intro S G kb nodes store target n r h
  obtain ⟨h0, pad, hr, hpad⟩ := selectClosestNodes_ok S G kb nodes store target n r h
  have hperm := S.perm (lessByDistance target) kb.contacts
  have hred : r.reduceOption = (S.sort (lessByDistance target) kb.contacts).take n.toNat := by
    rw [hr, padded_reduceOption]
  have hsub : r.reduceOption.Subperm kb.contacts := by
    rw [hred]
    exact (List.take_sublist _ _).subperm.trans hperm.subperm
  refine ⟨?_, ?_, hsub, ⟨(S.sort (lessByDistance target) kb.contacts).drop n.toNat, ?_, ?_⟩, ?_⟩
  · rw [hr, List.length_append, List.length_map, List.length_take, List.length_replicate,
      hperm.length_eq]
    omega
  · intro x hx
    have hx2 : x ∈ r.reduceOption := List.reduceOption_mem_iff.mpr hx
    have hmem : x ∈ kb.contacts := hsub.subset hx2
    simp only [KBucket.contacts, List.mem_flatMap] at hmem
    obtain ⟨b, hb, hxb⟩ := hmem
    cases b with
    | none => simp at hxb
    | some bucket => exact ⟨bucket, hb, hxb⟩
  · rw [hred, List.take_append_drop]
    exact hperm
  · have hp := sort_pairwise_distance S target kb.contacts
    rw [← List.take_append_drop n.toNat (S.sort (lessByDistance target) kb.contacts)] at hp
    intro x hx y hy
    rw [hred] at hx
    have := (List.pairwise_append.mp hp).2.2 x hx y hy
    omega
  · intro hn
    have hzero : pad = 0 := by omega
    rw [hred]
    rw [hr, hzero]
    simp

theorem selectClosestNodes_globally_closest_witness :
    KBucket.selectClosestNodes insertionSorter gcGrower
        { buckets := [some { nodes := [{ id := "0a", dht := 0 }, { id := "03", dht := 1 }] },
                      some { nodes := [{ id := "01", dht := 2 }] }] } [] [] "02" 2 =
      .ok [some { id := "03", dht := 1 }, some { id := "01", dht := 2 }] ∧
    List.Subperm
      (List.reduceOption [some ({ id := "03", dht := 1 } : Node), some { id := "01", dht := 2 }])
      (KBucket.contacts
        { buckets := [some { nodes := [{ id := "0a", dht := 0 }, { id := "03", dht := 1 }] },
                      some { nodes := [{ id := "01", dht := 2 }] }] }) ∧
    ∃ r, KBucket.selectClosestNodes insertionSorter gcGrower
        { buckets := [some { nodes := [{ id := "0a", dht := 0 }, { id := "03", dht := 1 }] },
                      some { nodes := [{ id := "01", dht := 2 }] }] } [] [] "02" 0 = .ok r := by
  have hrun : KBucket.selectClosestNodes insertionSorter gcGrower
        { buckets := [some { nodes := [{ id := "0a", dht := 0 }, { id := "03", dht := 1 }] },
                      some { nodes := [{ id := "01", dht := 2 }] }] } [] [] "02" 2 =
      .ok [some { id := "03", dht := 1 }, some { id := "01", dht := 2 }] := by decide
  exact ⟨hrun,
    (selectClosestNodes_globally_closest.1 insertionSorter gcGrower _ [] [] "02" 2 _
      hrun).2.2.1,
    selectClosestNodes_globally_closest.2 insertionSorter gcGrower _ [] [] "02" 0 (by decide)
      (by decide) (by decide)⟩

end DHT_demo

namespace DHT_demo

/-! ## The distance metric -/

theorem digitVal_of_hexDigit (c : Char) (hc : c ∈ hexDigits) :
    digitVal c = hexDigitValue c ∧ digitVal c < 16 ∧ c ≠ '+' ∧ c ≠ '-' := by
  simp only [hexDigits, List.mem_cons, List.mem_singleton, List.not_mem_nil, or_false] at hc
  rcases hc with h | h | h | h | h | h | h | h | h | h | h | h | h | h | h | h | h | h | h | h |
    h | h <;> subst h <;> decide

theorem scanDigits_hex (cs : List Char) (hcs : ∀ c ∈ cs, c ∈ hexDigits) :
    ∀ acc : Nat, scanDigits 16 cs acc =
      acc * 16 ^ cs.length + Nat.ofDigits 16 (cs.reverse.map hexDigitValue) := by
  induction cs with
  | nil => intro acc; simp [scanDigits]
  | cons c rest ih =>
    intro acc
    obtain ⟨hval, hlt, _, _⟩ := digitVal_of_hexDigit c (hcs c (List.mem_cons_self _ _))
    simp only [scanDigits, hlt, if_true]
    rw [ih (fun x hx => hcs x (List.mem_cons_of_mem _ hx))]
    simp only [List.reverse_cons, List.map_append, List.map_cons, List.map_nil,
      Nat.ofDigits_append, List.length_map, List.length_reverse, Nat.ofDigits_singleton,
      List.length_cons, hval]
    ring

theorem SetString_hex (s : String) (hs : IsHex s) : SetString s 16 = Int.ofNat (hexValue s) := by
  unfold SetString hexValue
  cases hdata : s.data with
  | nil => simp
  | cons c cs =>
    have hall : ∀ x ∈ c :: cs, x ∈ hexDigits := by
      intro x hx
      exact hs x (by rw [hdata]; exact hx)
    obtain ⟨_, _, hplus, hminus⟩ := digitVal_of_hexDigit c (hall c (List.mem_cons_self _ _))
    simp only [hplus, hminus, if_false]
    rw [scanDigits_hex (c :: cs) hall 0]
    simp

/-- C10. For identifiers that are strings of hexadecimal digits, `calculateDistance` is the
bitwise exclusive or of the two unsigned integers they denote in base 16: a non-negative
integer of unbounded size. -/
theorem calculateDistance_eq_xor (a b : String) (ha : IsHex a) (hb : IsHex b) :
    calculateDistance a b = ((hexValue a ^^^ hexValue b : Nat) : Int) ∧
    0 ≤ calculateDistance a b := by
  have h : calculateDistance a b = ((hexValue a ^^^ hexValue b : Nat) : Int) := by
    simp only [calculateDistance, SetString_hex a ha, SetString_hex b hb, Xor]
    rfl
  exact ⟨h, by rw [h]; exact Int.ofNat_nonneg _⟩

theorem calculateDistance_eq_xor_witness :
    IsHex "fF0123456789abcdef0123456789abcdef" ∧ IsHex "0f" ∧
    calculateDistance "fF0123456789abcdef0123456789abcdef" "0f" =
      ((hexValue "fF0123456789abcdef0123456789abcdef" ^^^ hexValue "0f" : Nat) : Int) ∧
    hexValue "fF0123456789abcdef0123456789abcdef" = 0xff0123456789abcdef0123456789abcdef ∧
    calculateDistance "fF0123456789abcdef0123456789abcdef" "0f" =
      0xff0123456789abcdef0123456789abcde0 :=
  ⟨by decide, by decide,
    (calculateDistance_eq_xor "fF0123456789abcdef0123456789abcdef" "0f"
      (by decide) (by decide)).1,
    by decide, by decide⟩

end DHT_demo

namespace DHT_demo

/-! ## The distance metric: symmetry, identity, triangle -/

theorem Xor_comm (x y : Int) : Xor x y = Xor y x := by
  cases x <;> cases y <;> simp [Xor, Nat.xor_comm]

theorem Xor_self (x : Int) : Xor x x = 0 := by
  cases x <;> simp [Xor]

theorem Nat_xor_le_add (x : Nat) : ∀ y : Nat, x ^^^ y ≤ x + y := by
  induction x using Nat.binaryRec with
  | z => intro y; simp
  | f a m ih =>
    intro y
    induction y using Nat.binaryRec with
    | z => simp
    | f b n _ =>
      rw [Nat.xor_bit]
      have h := ih n
      simp only [Nat.bit_val]
      cases a <;> cases b <;> simp <;> omega

theorem Nat_xor_triangle (x y z : Nat) : x ^^^ z ≤ (x ^^^ y) + (y ^^^ z) := by
  have h : x ^^^ z = (x ^^^ y) ^^^ (y ^^^ z) := by
    rw [Nat.xor_assoc, ← Nat.xor_assoc y y z, Nat.xor_self, Nat.zero_xor]
  rw [h]
  exact Nat_xor_le_add _ _

/-- C11. The metric is symmetric: `calculateDistance(a, b) == calculateDistance(b, a)` for all
strings `a` and `b`, hexadecimal or not. -/
theorem calculateDistance_symm (a b : String) :
    calculateDistance a b = calculateDistance b a := by
  simp only [calculateDistance]
  exact Xor_comm _ _

theorem calculateDistance_self_zero (a : String) : calculateDistance a a = 0 := by
  simp only [calculateDistance]
  exact Xor_self _

/-- C12. Self-distance is zero: `calculateDistance(a, a) == 0` for every string `a`,
hexadecimal or not. -/
theorem calculateDistance_self (a : String) : calculateDistance a a = 0 := by
  simp only [calculateDistance]
  exact Xor_self _

/-- C13. Triangle inequality: for identifiers `a`, `b`, `c` that are strings of hexadecimal
digits, `calculateDistance(a, c) <= calculateDistance(a, b) + calculateDistance(b, c)`. -/
theorem calculateDistance_triangle (a b c : String) (ha : IsHex a) (hb : IsHex b)
    (hc : IsHex c) :
    calculateDistance a c ≤ calculateDistance a b + calculateDistance b c := by
  simp only [calculateDistance, SetString_hex a ha, SetString_hex b hb, SetString_hex c hc, Xor,
    Int.ofNat_eq_coe]
  exact_mod_cast Nat_xor_triangle (hexValue a) (hexValue b) (hexValue c)

theorem calculateDistance_triangle_witness :
    IsHex "f0" ∧ IsHex "3C" ∧ IsHex "0f" ∧
    calculateDistance "f0" "0f" ≤ calculateDistance "f0" "3C" + calculateDistance "3C" "0f" ∧
    calculateDistance "f0" "0f" = 255 ∧ calculateDistance "f0" "3C" = 204 ∧
    calculateDistance "3C" "0f" = 51 :=
  ⟨by decide, by decide, by decide,
    calculateDistance_triangle "f0" "3C" "0f" (by decide) (by decide) (by decide),
    by decide, by decide, by decide⟩

end DHT_demo

namespace DHT_demo

/-! ## The distance metric: distance zero identifies the peer -/

theorem hexDigitValue_lower (c : Char) (hc : c ∈ hextable) :
    hexDigitValue c < 16 ∧ hextable.getD (hexDigitValue c) '0' = c ∧ c ∈ hexDigits := by
  simp only [hextable, List.mem_cons, List.mem_singleton, List.not_mem_nil, or_false] at hc
  rcases hc with h | h | h | h | h | h | h | h | h | h | h | h | h | h | h | h <;>
    subst h <;> decide

theorem IsLowerHex.isHex {s : String} (hs : IsLowerHex s) : IsHex s :=
  fun c hc => (hexDigitValue_lower c (hs c hc)).2.2

theorem map_hexDigitValue_inj (l1 l2 : List Char) (h1 : ∀ c ∈ l1, c ∈ hextable)
    (h2 : ∀ c ∈ l2, c ∈ hextable) (h : l1.map hexDigitValue = l2.map hexDigitValue) :
    l1 = l2 := by
  have back : ∀ l : List Char, (∀ c ∈ l, c ∈ hextable) →
      (l.map hexDigitValue).map (fun n => hextable.getD n '0') = l := by
    intro l hl
    rw [List.map_map]
    conv_rhs => rw [← List.map_id l]
    exact List.map_congr_left (fun c hc => (hexDigitValue_lower c (hl c hc)).2.1)
  rw [← back l1 h1, ← back l2 h2, h]

theorem ofDigits16_inj : ∀ (l1 l2 : List Nat), l1.length = l2.length →
    (∀ x ∈ l1, x < 16) → (∀ x ∈ l2, x < 16) → Nat.ofDigits 16 l1 = Nat.ofDigits 16 l2 →
    l1 = l2 := by
  intro l1
  induction l1 with
  | nil =>
    intro l2 hlen _ _ _
    cases l2 with
    | nil => rfl
    | cons y ys => simp at hlen
  | cons x xs ih =>
    intro l2 hlen h1 h2 h
    cases l2 with
    | nil => simp at hlen
    | cons y ys =>
      simp only [Nat.ofDigits_cons] at h
      have hx := h1 x (List.mem_cons_self _ _)
      have hy := h2 y (List.mem_cons_self _ _)
      have hxy : x = y := by omega
      have htail : Nat.ofDigits 16 xs = Nat.ofDigits 16 ys := by omega
      rw [hxy, ih ys (by simpa using hlen) (fun z hz => h1 z (List.mem_cons_of_mem _ hz))
        (fun z hz => h2 z (List.mem_cons_of_mem _ hz)) htail]

theorem hexValue_inj (a b : String) (ha : IsLowerHex a) (hb : IsLowerHex b)
    (hlen : a.length = b.length) (h : hexValue a = hexValue b) : a = b := by
  have hlen2 : a.data.length = b.data.length := hlen
  have hdigits : a.data.reverse.map hexDigitValue = b.data.reverse.map hexDigitValue := by
    refine ofDigits16_inj _ _ ?_ ?_ ?_ h
    · simp [hlen2]
    · intro l hl
      obtain ⟨c, hc, rfl⟩ := List.mem_map.mp hl
      exact (hexDigitValue_lower c (ha c (List.mem_reverse.mp hc))).1
    · intro l hl
      obtain ⟨c, hc, rfl⟩ := List.mem_map.mp hl
      exact (hexDigitValue_lower c (hb c (List.mem_reverse.mp hc))).1
  have hrev := map_hexDigitValue_inj _ _
    (fun c hc => ha c (List.mem_reverse.mp hc)) (fun c hc => hb c (List.mem_reverse.mp hc)) hdigits
  exact String.ext (List.reverse_injective hrev)

theorem Xor_ofNat_left_inj (m n : Nat) (t : Int)
    (h : Xor (Int.ofNat m) t = Xor (Int.ofNat n) t) : m = n := by
  cases t with
  | ofNat k =>
    simp only [Xor, Int.ofNat_eq_coe, Int.natCast_inj] at h
    exact Nat.xor_left_inj.mp h
  | negSucc k =>
    simp only [Xor, Int.negSucc.injEq] at h
    exact Nat.xor_left_inj.mp h

theorem calculateDistance_left_inj (a b t : String) (ha : IsLowerHex a) (hb : IsLowerHex b)
    (hlen : a.length = b.length) (h : calculateDistance a t = calculateDistance b t) : a = b := by
  simp only [calculateDistance, SetString_hex a ha.isHex, SetString_hex b hb.isHex] at h
  exact hexValue_inj a b ha hb hlen (Xor_ofNat_left_inj _ _ _ h)

/-- C19. Distance zero identifies the peer. For identifiers `a` and `b` that are lowercase
hexadecimal strings of one length, `calculateDistance(a, b) == 0` exactly when `a == b`;
and for every target `t`, two distinct such identifiers are at different distances from `t`,
so that one is strictly closer than the other. -/
theorem calculateDistance_eq_zero_iff :
    (∀ a b : String, IsLowerHex a → IsLowerHex b → a.length = b.length →
      (calculateDistance a b = 0 ↔ a = b)) ∧
    (∀ a b t : String, IsLowerHex a → IsLowerHex b → a.length = b.length → a ≠ b →
      calculateDistance a t < calculateDistance b t ∨
      calculateDistance b t < calculateDistance a t) := by
  constructor
  · intro a b ha hb hlen
    constructor
    · intro h
      refine calculateDistance_left_inj a b b ha hb hlen ?_
      rw [h, calculateDistance_self_zero]
    · intro h
      subst h
      exact calculateDistance_self_zero a
  · intro a b t ha hb hlen hne
    rcases lt_trichotomy (calculateDistance a t) (calculateDistance b t) with h | h | h
    · exact Or.inl h
    · exact absurd (calculateDistance_left_inj a b t ha hb hlen h) hne
    · exact Or.inr h

theorem calculateDistance_eq_zero_iff_witness :
    IsLowerHex "0a" ∧ IsLowerHex "1b" ∧
    (calculateDistance "0a" "1b" = 0 ↔ "0a" = "1b") ∧
    calculateDistance "0a" "1b" = 17 ∧
    (calculateDistance "0a" "ff" < calculateDistance "1b" "ff" ∨
      calculateDistance "1b" "ff" < calculateDistance "0a" "ff") :=
  ⟨by decide, by decide,
    calculateDistance_eq_zero_iff.1 "0a" "1b" (by decide) (by decide) (by decide),
    by decide,
    calculateDistance_eq_zero_iff.2 "0a" "1b" "ff" (by decide) (by decide) (by decide)
      (by decide)⟩

end DHT_demo

namespace DHT_demo

/-! ## `GetValue` -/

/-- C14, at the failing input: a peer just made by `NewPeer`, on any heap and for any key.
Its store is empty, so `GetValue` turns to the routing table, whose buckets are nil
pointers, and panics with a nil dereference, where the claim has it return nil. -/
theorem GetValue_panics_on_NewPeer (S : SliceSorter) (G : SliceGrower) (nodeGet : NodeGetter)
    (h : Heap) (id key : String) :
    Peer.GetValue S G nodeGet (NewPeer h id).2 (NewPeer h id).1 key =
      .error Fault.nilDereference := by
  simp [Peer.GetValue, NewPeer, Store.get, List.lookup, KBucket.selectClosestNodes, NewKBucket,
    K, List.replicate, appendBuckets]

theorem firstVerified_verified (get : Option Node → Except Fault ByteSlice) (key : String)
    (v : List Byte) :
    ∀ nodes : List (Option Node), firstVerified get key nodes = .ok (some v) →
      hexSum256 (some v) = key := by
  intro nodes
  induction nodes with
  | nil => intro h; simp [firstVerified] at h
  | cons node rest ih =>
    intro h
    simp only [firstVerified] at h
    split at h
    · cases h
    · next u hu =>
      split at h
      · next hk =>
        simp only [Except.ok.injEq, Option.some.injEq] at h
        subst h
        simpa using hk
      · exact ih h
    · exact ih h

/-- C15, amended. If the entry that the store of the peer holds under `key`, when it holds
one, is keyed by the lowercase hexadecimal SHA-256 of its value (as every entry written by
`SetValue` is), then a non-nil `v` returned by `GetValue(key)` satisfies
`hex(SHA-256(v)) == key`, whether it came from the store or from a queried node. -/
theorem GetValue_returns_verified (S : SliceSorter) (G : SliceGrower) (nodeGet : NodeGetter)
    (h : Heap) (p : Peer) (key : String) (v : List Byte)
    (hown : ∀ d old, h[p.dht]? = some d → d.store.get key = some old → hexSum256 old = key)
    (hget : Peer.GetValue S G nodeGet h p key = .ok (some v)) :
    hexSum256 (some v) = key := by
  simp only [Peer.GetValue] at hget
  split at hget
  · cases hget
  · next d hd =>
    split at hget
    · next value hvalue =>
      simp only [Except.ok.injEq] at hget
      subst hget
      exact hown d (some v) hd hvalue
    · split at hget
      · cases hget
      · exact firstVerified_verified _ key v _ hget

set_option maxRecDepth 8000 in
theorem GetValue_returns_verified_witness :
    Peer.GetValue insertionSorter gcGrower (fun _ _ _ => .ok abc)
        [{ store := [], nodes := [] }]
        { kbucket := { buckets := [some { nodes := [{ id := "0a", dht := 0 },
                                                    { id := "0b", dht := 0 }] }] }, dht := 0 }
        abcKey = .ok abc ∧
    hexSum256 abc = abcKey := by
  have hget : Peer.GetValue insertionSorter gcGrower (fun _ _ _ => .ok abc)
        [{ store := [], nodes := [] }]
        { kbucket := { buckets := [some { nodes := [{ id := "0a", dht := 0 },
                                                    { id := "0b", dht := 0 }] }] }, dht := 0 }
        abcKey = .ok abc := by decide
  refine ⟨hget, GetValue_returns_verified insertionSorter gcGrower (fun _ _ _ => .ok abc) _ _ abcKey
    [97, 98, 99] ?_ hget⟩
  intro d old hd hold
  simp only [List.getElem?_cons_zero, Option.some.injEq] at hd
  subst hd
  simp [Store.get, List.lookup] at hold

/-- C15 as stated fails: the store of the peer holds the one byte "x" under the SHA-256 key
of "abc"; `GetValue` of that key returns "x" from the store without hashing it, and the
SHA-256 of "x" is not the key. -/
theorem GetValue_returns_unverified_own_entry :
    Peer.GetValue insertionSorter gcGrower noAnswer [{ store := [(abcKey, some [120])], nodes := [] }]
        { kbucket := NewKBucket, dht := 0 } abcKey = .ok (some [120]) ∧
    hexSum256 (some [120]) ≠ abcKey :=
  ⟨by decide, by decide⟩

end DHT_demo

namespace DHT_demo

/-! ## Closest-node selection: order among the returned contacts -/

/-- C16, amended. Whatever the table, the target and `n`: when contact `x` is strictly closer
to the target than contact `y`, then `x` precedes `y` in the result whenever both are
returned, and `y` is not returned without `x`. (Between contacts at equal distance the order
is the one `sort.Slice` leaves.) -/
theorem selectClosestNodes_orders_strictly_closer (S : SliceSorter) (G : SliceGrower)
    (kb : KBucket) (nodes : List Node) (store : Store) (target : String) (n : Int)
    (r : List (Option Node)) (x y : Node)
    (hrun : kb.selectClosestNodes S G nodes store target n = .ok r)
    (hx : x ∈ kb.contacts)
    (hcloser : calculateDistance x.id target < calculateDistance y.id target) :
    (∀ i j : Nat, r[i]? = some (some x) → r[j]? = some (some y) → i < j) ∧
    (some y ∈ r → some x ∈ r) := by
  obtain ⟨_, pad, hr, _⟩ := selectClosestNodes_ok S G kb nodes store target n r hrun
  have hp := sort_pairwise_distance S target kb.contacts
  constructor
  · intro i j hi hj
    rw [hr] at hi hj
    have hi0 := padded_getElem? _ pad i x hi
    have hj0 := padded_getElem? _ pad j y hj
    have hpr : List.Pairwise
        (fun a b => calculateDistance a.id target ≤ calculateDistance b.id target)
        ((S.sort (lessByDistance target) kb.contacts).take n.toNat) :=
      hp.sublist (List.take_sublist _ _)
    obtain ⟨hi1, hi2⟩ := List.getElem?_eq_some.mp hi0
    obtain ⟨hj1, hj2⟩ := List.getElem?_eq_some.mp hj0
    rcases Nat.lt_trichotomy i j with h | h | h
    · exact h
    · subst h
      rw [hi2] at hj2
      subst hj2
      omega
    · have := List.pairwise_iff_getElem.mp hpr j i hj1 hi1 h
      rw [hi2, hj2] at this
      omega
  · intro hy
    rw [hr] at hy ⊢
    rw [padded_mem] at hy ⊢
    have hxs : x ∈ S.sort (lessByDistance target) kb.contacts :=
      (S.perm (lessByDistance target) kb.contacts).mem_iff.mpr hx
    rw [← List.take_append_drop n.toNat (S.sort (lessByDistance target) kb.contacts)] at hxs hp
    rcases List.mem_append.mp hxs with h | h
    · exact h
    · have := (List.pairwise_append.mp hp).2.2 y hy x h
      omega

theorem selectClosestNodes_orders_strictly_closer_witness :
    KBucket.selectClosestNodes insertionSorter gcGrower
        { buckets := [some { nodes := [{ id := "0a", dht := 0 }, { id := "03", dht := 1 }] },
                      some { nodes := [{ id := "01", dht := 2 }] }] } [] [] "02" 4 =
      .ok [some { id := "03", dht := 1 }, some { id := "01", dht := 2 },
           some { id := "0a", dht := 0 }, none] ∧
    calculateDistance "03" "02" < calculateDistance "01" "02" ∧
    ((∀ i j : Nat,
        [some ({ id := "03", dht := 1 } : Node), some { id := "01", dht := 2 },
            some { id := "0a", dht := 0 }, none][i]? =
          some (some { id := "03", dht := 1 }) →
        [some ({ id := "03", dht := 1 } : Node), some { id := "01", dht := 2 },
            some { id := "0a", dht := 0 }, none][j]? =
          some (some { id := "01", dht := 2 }) → i < j) ∧
      (some ({ id := "01", dht := 2 } : Node) ∈
          [some ({ id := "03", dht := 1 } : Node), some { id := "01", dht := 2 },
            some { id := "0a", dht := 0 }, none] →
        some ({ id := "03", dht := 1 } : Node) ∈
          [some ({ id := "03", dht := 1 } : Node), some { id := "01", dht := 2 },
            some { id := "0a", dht := 0 }, none])) := by
  have hrun : KBucket.selectClosestNodes insertionSorter gcGrower
        { buckets := [some { nodes := [{ id := "0a", dht := 0 }, { id := "03", dht := 1 }] },
                      some { nodes := [{ id := "01", dht := 2 }] }] } [] [] "02" 4 =
      .ok [some { id := "03", dht := 1 }, some { id := "01", dht := 2 },
           some { id := "0a", dht := 0 }, none] := by decide
  exact ⟨hrun, by decide,
    selectClosestNodes_orders_strictly_closer insertionSorter gcGrower _ [] [] "02" 4 _
      { id := "03", dht := 1 } { id := "01", dht := 2 } hrun (by decide) (by decide)⟩

/-- C16 as stated fails. In the table `thirteenContacts` the contacts "node1" and "node6" are
both at distance 0 from the target "00" and "node1" comes first in the buckets. A sorter that
meets the contract of `sort.Slice` (which promises no stability) puts "node6" first: with
`n = 2` it precedes "node1" in the result, and with `n = 1` it is returned without
"node1". -/
theorem selectClosestNodes_tie_order_not_kept :
    calculateDistance "node1" "00" = 0 ∧ calculateDistance "node6" "00" = 0 ∧
    (thirteenContacts.contacts.map Node.id).take 7 =
      ["01", "node1", "node2", "node3", "node4", "node5", "node6"] ∧
    thirteenContacts.selectClosestNodes pivotFirstSorter gcGrower [] [] "00" 2 =
      .ok [some { id := "node6", dht := 6 }, some { id := "node1", dht := 1 }] ∧
    thirteenContacts.selectClosestNodes pivotFirstSorter gcGrower [] [] "00" 1 =
      .ok [some { id := "node6", dht := 6 }] :=
  ⟨by decide, by decide, by decide, by decide, by decide⟩

/-! ## `SetValue`: the target of the selection -/

/-- C17, at the failing input: a node with any identifier `id` and an empty store, storing
"abc" under its SHA-256 key, with a selection that returns no node. The one selection of the
run is called with the identifier of the node as its target, not with the key. -/
theorem SetValue_selects_by_node_id (id : String) :
    Node.SetValue (fun _ _ _ _ => .ok []) 1
        { heap := [{ store := [], nodes := [] }], trace := [] } { id := id, dht := 0 }
        abcKey abc =
      .ok (true, { heap := [{ store := [(abcKey, abc)], nodes := [] }],
                   trace := [Event.setValue { id := id, dht := 0 } abcKey abc,
                             Event.select 0 id 2] }) := by
  have hkey : hexSum256 abc = abcKey := by decide
  simp [Node.SetValue, hkey, Store.get, Store.set, List.lookup, forNodes]

end DHT_demo

namespace DHT_demo

/-! ## `SetValue`: the recursion ends, and how many calls it makes -/

theorem forNodes_ends (call : World → Node → Except Fault (Bool × World)) (key : String)
    (fuel : Nat)
    (hcall : ∀ (w : World) (n : Node), Heap.lacking key w.heap < fuel →
      call w n ≠ .error Fault.outOfFuel ∧
      ∀ b w2, call w n = .ok (b, w2) → w.heap.Extends w2.heap) :
    ∀ (nodes : List Node) (w : World), Heap.lacking key w.heap < fuel →
      forNodes call nodes w ≠ .error Fault.outOfFuel := by
  intro nodes
  induction nodes with
  | nil => intro w _ h; simp [forNodes] at h
  | cons node rest ih =>
    intro w hf h
    obtain ⟨hne, hext⟩ := hcall w node hf
    simp only [forNodes] at h
    split at h
    · next e he =>
      simp only [Except.error.injEq] at h
      subst h
      exact hne he
    · next b w1 hc =>
      exact ih w1 (Nat.lt_of_le_of_lt ((hext b w1 hc).lacking_le key) hf) h

theorem SetValue_ends (sel : DhtSelector)
    (hsel : ∀ h a nodeId k, sel h a nodeId k ≠ .error Fault.outOfFuel)
    (key : String) (value : ByteSlice) :
    ∀ (fuel : Nat) (w : World) (n : Node), Heap.lacking key w.heap < fuel →
      Node.SetValue sel fuel w n key value ≠ .error Fault.outOfFuel := by
  intro fuel
  induction fuel with
  | zero => intro w n hf; omega
  | succ fuel ih =>
    intro w n hf h
    simp only [Node.SetValue] at h
    split at h
    · cases h
    · split at h
      · cases h
      · next d hd =>
        split at h
        · cases h
        · next hnone =>
          split at h
          · next e he =>
            simp only [Except.error.injEq] at h
            subst h
            exact hsel _ _ _ _ he
          · next ns hns =>
            split at h
            · next e he =>
              simp only [Except.error.injEq] at h
              subst h
              have hlack := Heap.lacking_store w.heap n.dht d key value hd hnone
              refine forNodes_ends
                (fun w node => Node.SetValue sel fuel w node key value) key fuel
                (fun w1 m hf1 => ⟨ih w1 m hf1,
                  fun b w2 hc => SetValue_extends sel key value fuel w1 m b w2 hc⟩)
                ns _ ?_ he
              show Heap.lacking key (w.heap.set n.dht
                { store := d.store.set key value, nodes := d.nodes }) < fuel
              omega
            · cases h

theorem setValueCalls_append_setValue (t : List Event) (n : Node) (key : String)
    (value : ByteSlice) :
    setValueCalls (t ++ [Event.setValue n key value]) = setValueCalls t + 1 := by
  simp [setValueCalls, List.countP_append]

theorem setValueCalls_append_select (t : List Event) (a : Nat) (nodeId : String) (k : Int) :
    setValueCalls (t ++ [Event.select a nodeId k]) = setValueCalls t := by
  simp [setValueCalls, List.countP_append]

theorem forNodes_calls (call : World → Node → Except Fault (Bool × World)) (key : String)
    (hcall : ∀ w n b w2, call w n = .ok (b, w2) →
      setValueCalls w2.trace + 2 * Heap.lacking key w2.heap ≤
        setValueCalls w.trace + 2 * Heap.lacking key w.heap + 1) :
    ∀ (nodes : List Node) (w w2 : World), forNodes call nodes w = .ok w2 →
      setValueCalls w2.trace + 2 * Heap.lacking key w2.heap ≤
        setValueCalls w.trace + 2 * Heap.lacking key w.heap + nodes.length := by
  intro nodes
  induction nodes with
  | nil =>
    intro w w2 h
    simp only [forNodes, Except.ok.injEq] at h
    subst h
    simp
  | cons node rest ih =>
    intro w w2 h
    simp only [forNodes] at h
    split at h
    · cases h
    · next b w1 hc =>
      have h1 := hcall w node b w1 hc
      have h2 := ih w1 w2 h
      simp only [List.length_cons]
      omega

theorem SetValue_calls (sel : DhtSelector) (hb : sel.Bounded) (key : String)
    (value : ByteSlice) :
    ∀ (fuel : Nat) (w : World) (n : Node) (b : Bool) (w2 : World),
      Node.SetValue sel fuel w n key value = .ok (b, w2) →
      setValueCalls w2.trace + 2 * Heap.lacking key w2.heap ≤
        setValueCalls w.trace + 2 * Heap.lacking key w.heap + 1 := by
  intro fuel
  induction fuel with
  | zero => intro w n b w2 h; simp [Node.SetValue] at h
  | succ fuel ih =>
    intro w n b w2 h
    simp only [Node.SetValue] at h
    split at h
    · simp only [Except.ok.injEq, Prod.mk.injEq] at h
      rw [← h.2]
      simp only [setValueCalls_append_setValue]
      omega
    · split at h
      · cases h
      · next d hd =>
        split at h
        · simp only [Except.ok.injEq, Prod.mk.injEq] at h
          rw [← h.2]
          simp only [setValueCalls_append_setValue]
          omega
        · next hnone =>
          split at h
          · cases h
          · next ns hns =>
            split at h
            · cases h
            · next w3 hloop =>
              simp only [Except.ok.injEq, Prod.mk.injEq] at h
              rw [← h.2]
              have hlen : (ns.length : Int) ≤ 2 := hb _ _ _ _ ns (by decide) hns
              have hlack := Heap.lacking_store w.heap n.dht d key value hd hnone
              have hl := forNodes_calls
                (fun w node => Node.SetValue sel fuel w node key value) key
                (fun w1 m b1 w4 hc => ih w1 m b1 w4 hc) ns _ w3 hloop
              simp only [setValueCalls_append_setValue, setValueCalls_append_select] at hl
              omega

/-- C18. The recursion of `SetValue` ends on every heap, cyclic or not. With a selection that
itself ends, a recursion budget above the number of `DHT` objects is never exhausted: the
run ends in a result or in a panic. And with a selection that returns at most the 2 nodes it
is asked for, a run that returns makes at most `1 + 2 * g` invocations of `SetValue`, where
`g` is the number of stores that gained the key during the run (each gains it at most once),
which is at most the number of `DHT` objects. -/
theorem SetValue_terminates_with_bounded_calls :
    (∀ (sel : DhtSelector) (fuel : Nat) (w : World) (n : Node) (key : String)
      (value : ByteSlice), (∀ h a nodeId k, sel h a nodeId k ≠ .error Fault.outOfFuel) →
      w.heap.length < fuel →
      Node.SetValue sel fuel w n key value ≠ .error Fault.outOfFuel) ∧
    (∀ (sel : DhtSelector) (fuel : Nat) (w : World) (n : Node) (key : String)
      (value : ByteSlice) (b : Bool) (w2 : World), sel.Bounded →
      Node.SetValue sel fuel w n key value = .ok (b, w2) →
      Heap.lacking key w2.heap ≤ Heap.lacking key w.heap ∧
      setValueCalls w2.trace ≤
        setValueCalls w.trace + 1 + 2 * (Heap.lacking key w.heap - Heap.lacking key w2.heap) ∧
      setValueCalls w2.trace ≤ setValueCalls w.trace + 1 + 2 * w.heap.length) := by
  constructor
  · intro sel fuel w n key value hsel hf
    exact SetValue_ends sel hsel key value fuel w n
      (Nat.lt_of_le_of_lt (Heap.lacking_le_length key w.heap) hf)
  · intro sel fuel w n key value b w2 hb hrun
    have hle := (SetValue_extends sel key value fuel w n b w2 hrun).lacking_le key
    have hcalls := SetValue_calls sel hb key value fuel w n b w2 hrun
    have hlen := Heap.lacking_le_length key w.heap
    exact ⟨hle, by omega, by omega⟩

theorem listedUpTo_ends (h : Heap) (a : Nat) (nodeId : String) (k : Int) :
    listedUpTo h a nodeId k ≠ .error Fault.outOfFuel := by
  intro he
  simp only [listedUpTo] at he
  split at he <;> cases he

theorem listedUpTo_bounded : DhtSelector.Bounded listedUpTo := by
  intro h a nodeId k ns hk hs
  simp only [listedUpTo] at hs
  split at hs
  · simp only [Except.ok.injEq] at hs
    subst hs
    rw [List.length_take]
    omega
  · cases hs

theorem SetValue_terminates_with_bounded_calls_witness :
    Node.SetValue listedUpTo 3
        { heap := [{ store := [], nodes := [{ id := "0b", dht := 1 }, { id := "0a", dht := 0 }] },
                   { store := [], nodes := [{ id := "0a", dht := 0 }, { id := "0b", dht := 1 }] }],
          trace := [] }
        { id := "0a", dht := 0 } abcKey abc =
      .ok (true,
        { heap := [{ store := [(abcKey, abc)],
                     nodes := [{ id := "0b", dht := 1 }, { id := "0a", dht := 0 }] },
                   { store := [(abcKey, abc)],
                     nodes := [{ id := "0a", dht := 0 }, { id := "0b", dht := 1 }] }],
          trace := [Event.setValue { id := "0a", dht := 0 } abcKey abc,
                    Event.select 0 "0a" 2,
                    Event.setValue { id := "0b", dht := 1 } abcKey abc,
                    Event.select 1 "0b" 2,
                    Event.setValue { id := "0a", dht := 0 } abcKey abc,
                    Event.setValue { id := "0b", dht := 1 } abcKey abc,
                    Event.setValue { id := "0a", dht := 0 } abcKey abc] }) ∧
    setValueCalls [Event.setValue { id := "0a", dht := 0 } abcKey abc,
                    Event.select 0 "0a" 2,
                    Event.setValue { id := "0b", dht := 1 } abcKey abc,
                    Event.select 1 "0b" 2,
                    Event.setValue { id := "0a", dht := 0 } abcKey abc,
                    Event.setValue { id := "0b", dht := 1 } abcKey abc,
                    Event.setValue { id := "0a", dht := 0 } abcKey abc] ≤ 0 + 1 + 2 * 2 ∧
    Node.SetValue listedUpTo 3
        { heap := [{ store := [], nodes := [{ id := "0b", dht := 1 }, { id := "0a", dht := 0 }] },
                   { store := [], nodes := [{ id := "0a", dht := 0 }, { id := "0b", dht := 1 }] }],
          trace := [] }
        { id := "0a", dht := 0 } abcKey abc ≠ .error Fault.outOfFuel := by
  have hrun : Node.SetValue listedUpTo 3
        { heap := [{ store := [], nodes := [{ id := "0b", dht := 1 }, { id := "0a", dht := 0 }] },
                   { store := [], nodes := [{ id := "0a", dht := 0 }, { id := "0b", dht := 1 }] }],
          trace := [] }
        { id := "0a", dht := 0 } abcKey abc =
      .ok (true,
        { heap := [{ store := [(abcKey, abc)],
                     nodes := [{ id := "0b", dht := 1 }, { id := "0a", dht := 0 }] },
                   { store := [(abcKey, abc)],
                     nodes := [{ id := "0a", dht := 0 }, { id := "0b", dht := 1 }] }],
          trace := [Event.setValue { id := "0a", dht := 0 } abcKey abc,
                    Event.select 0 "0a" 2,
                    Event.setValue { id := "0b", dht := 1 } abcKey abc,
                    Event.select 1 "0b" 2,
                    Event.setValue { id := "0a", dht := 0 } abcKey abc,
                    Event.setValue { id := "0b", dht := 1 } abcKey abc,
                    Event.setValue { id := "0a", dht := 0 } abcKey abc] }) := by decide
  exact ⟨hrun,
    (SetValue_terminates_with_bounded_calls.2 listedUpTo 3 _ _ abcKey abc true _
      listedUpTo_bounded hrun).2.2,
    SetValue_terminates_with_bounded_calls.1 listedUpTo 3 _ { id := "0a", dht := 0 } abcKey abc
      listedUpTo_ends (by decide)⟩

end DHT_demo
